import Mathlib

/-!
# Verification of the S-PDH-EC elliptic-curve engine

Shallow embedding of the elliptic-curve Diffie-Hellman core of the
repository (`src/Protocols/SPDHEC/__init__.py`,
`src/Protocols/SPDHEC/ModularAritmetic/__init__.py`,
`src/Protocols/SPDHEC/ExtendedEuclideanAlgorithm/__init__.py` and
`SPDHECMain.py`) together with proofs about it.

Conventions of the embedding:
* Python integers are modelled by `ℤ` (scalars handed to the binary
  double-and-add routine, which are rendered via `bin(n)`, by `ℕ`).
* Python `%` on a positive modulus agrees with `Int.emod`, which is the
  `%` of `ℤ` here, and Python `//` agrees with `Int.ediv` (`/` here) for
  a positive divisor.
* `while` loops are written as structural recursion on an explicit fuel
  counter that dominates the number of iterations the loop performs, so
  every function is executable by the kernel.  Lemmas establish that the
  chosen fuel is always sufficient.
-/

namespace SPDHEC

/-- Python `Mod(a, p)` from `ModularAritmetic`: `a % p`, followed by the
(for positive `p` dead) fix-up branch adding `p` to a negative result. -/
def Mod (a p : ℤ) : ℤ :=
  if 0 ≤ a % p then a % p else a % p + p

/-- One step per binary digit of the exponent, least significant first:
`result` is multiplied by the running square `a` at every set bit.  The
loop of `fastExponentation` runs once per digit of `bin(b)`; here the
digits are consumed by repeated halving, with `fuel` bounding the number
of iterations.  `b = 0` leaves the initial `result` untouched, exactly as
the single iteration on the digit string `"0"` does. -/
def fastExpAux : ℕ → ℕ → ℤ → ℤ → ℤ → ℤ
  | 0, _, _, result, _ => result
  | fuel + 1, b, a, result, p =>
    if b = 0 then result
    else
      fastExpAux fuel (b / 2) ((a * a) % p)
        (if b % 2 = 1 then (result * a) % p else result) p

/-- Python `fastExponentation(a, b, p)` from `ModularAritmetic`: square-and-multiply
over the bits of `b`.  Fuel `b` dominates the number of binary digits. -/
def fastExponentation (a : ℤ) (b : ℕ) (p : ℤ) : ℤ :=
  fastExpAux b b a 1 p

/-- The state of `ExtendedEuclideanAlgorithm` after `GCD` has run:
`d = gcd`, and the Bézout coefficients `S`, `T`. -/
structure EEAResult where
  d : ℤ
  S : ℤ
  T : ℤ

/-- The `while r2 > 0` loop of `ExtendedEuclideanAlgorithm.GCD`, with
`q = r1 // r2` (floor division, which for `r2 > 0` is `Int.ediv`).
The remainder sequence is strictly decreasing and non-negative, so fuel
`r2.toNat + 1` dominates the iteration count. -/
def eeaGo : ℕ → ℤ → ℤ → ℤ → ℤ → ℤ → ℤ → EEAResult
  | 0, r1, _, s1, _, t1, _ => ⟨r1, s1, t1⟩
  | fuel + 1, r1, r2, s1, s2, t1, t2 =>
    if 0 < r2 then
      eeaGo fuel r2 (r1 - r1 / r2 * r2) s2 (s1 - r1 / r2 * s2) t2 (t1 - r1 / r2 * t2)
    else ⟨r1, s1, t1⟩

/-- Python `ExtendedEuclideanAlgorithm(a, b)`: runs `GCD(a, b)` starting from
`r1 = a, r2 = b, s1 = 1, s2 = 0, t1 = 0, t2 = 1`. -/
def ExtendedEuclideanAlgorithm (a b : ℤ) : EEAResult :=
  eeaGo (b.toNat + 1) a b 1 0 0 1

/-- Python `MultiplicativeInverse(a, n)` from `ModularAritmetic`: the Bézout
coefficient `S` reduced by `Mod` when the gcd is 1, the sentinel `-1`
otherwise. -/
def MultiplicativeInverse (a n : ℤ) : ℤ :=
  let gcd := ExtendedEuclideanAlgorithm a n
  if gcd.d = 1 then Mod gcd.S n else -1

/-- Python `isQuadraticResidue(x, p)`: Euler's criterion
`x^((p-1)/2) mod p == 1`.  (Python computes the exponent with `/`, a
float division whose value `int()` truncates; for the odd moduli in use
this is the exact integer `(p-1)/2`.) -/
def isQuadraticResidue (x p : ℤ) : Bool :=
  fastExponentation x (((p - 1) / 2).toNat) p == 1

/-- Python `ModularSquareRoot(a, p)`: `a^((p+1)/4) mod p` (again the float
exponent truncates to the exact integer for `p ≡ 3 (mod 4)`). -/
def ModularSquareRoot (a p : ℤ) : ℤ :=
  fastExponentation a (((p + 1) / 4).toNat) p

/-- Class `ECPoint`: a point with integer coordinates.  The default-constructed
point `(-1, -1)` is the point-at-infinity sentinel. -/
@[ext]
structure ECPoint where
  x : ℤ
  y : ℤ
deriving DecidableEq

/-- The point-at-infinity sentinel `ECPoint()` = `(-1, -1)`. -/
def ECPoint.inf : ECPoint := ⟨-1, -1⟩

/-- The curve parameters held by a `Ready` `ECC` object:
coefficients `A`, `B`, modulus `p` and the stored group order. -/
structure ECC where
  A : ℤ
  B : ℤ
  p : ℤ
  ecOrder : ℤ

/-- Method `ECC.isECNonSingular(a, b, p)`: the discriminant test
`(4·a³ % p + 27·b² % p) % p ≠ 0`. -/
def isECNonSingular (a b p : ℤ) : Bool :=
  ((4 * fastExponentation a 3 p % p) + (27 * fastExponentation b 2 p % p)) % p != 0

/-- Method `ECC.isEqual(P1, P2)`: coordinate-wise equality. -/
def isEqual (P1 P2 : ECPoint) : Bool :=
  P1.x == P2.x && P1.y == P2.y

/-- Method `ECC.isAdditiveInverse(P1, P2)`: same `x` and `P1.y == p - P2.y`. -/
def isAdditiveInverse (ec : ECC) (P1 P2 : ECPoint) : Bool :=
  P1.x == P2.x && P1.y == ec.p - P2.y

/-- The tail shared by both slope branches of `ECC.ECPointAddition`:
`P3.x = Mod(m² - P1.x - P2.x, p)`,
`P3.y = Mod((m · Mod(P1.x - P3.x, p)) % p - P1.y, p)`. -/
def ECAdditionFinish (ec : ECC) (P1 P2 : ECPoint) (m : ℤ) : ECPoint :=
  let x3 := Mod (fastExponentation m 2 ec.p - P1.x - P2.x) ec.p
  ⟨x3, Mod ((m * Mod (P1.x - x3) ec.p) % ec.p - P1.y) ec.p⟩

/-- Method `ECC.ECPointAddition(P1, P2)`: additive-inverse check, then the
tangent (equal points) or chord (distinct points) slope, then the shared
coordinate formulas. -/
def ECPointAddition (ec : ECC) (P1 P2 : ECPoint) : ECPoint :=
  if isAdditiveInverse ec P1 P2 then ECPoint.inf
  else if isEqual P1 P2 then
    if P1.y = 0 then ECPoint.inf
    else
      let inv := MultiplicativeInverse ((2 * P1.y) % ec.p) ec.p % ec.p
      let m := ((3 * fastExponentation P1.x 2 ec.p % ec.p + ec.A) % ec.p * inv) % ec.p
      ECAdditionFinish ec P1 P2 m
  else
    let inv := MultiplicativeInverse (Mod (P2.x - P1.x) ec.p) ec.p
    let m := (Mod (P2.y - P1.y) ec.p * inv) % ec.p
    ECAdditionFinish ec P1 P2 m

/-- Method `ECC.ECPointDoubling(P)`: returns infinity when `P.y == 0`, otherwise
the tangent-slope doubling with `R.x = Mod(m² - (2·P.x % p), p)`. -/
def ECPointDoubling (ec : ECC) (P : ECPoint) : ECPoint :=
  if P.y = 0 then ECPoint.inf
  else
    let inv := MultiplicativeInverse ((2 * P.y) % ec.p) ec.p % ec.p
    let m := ((3 * fastExponentation P.x 2 ec.p % ec.p + ec.A) % ec.p * inv) % ec.p
    let x3 := Mod (fastExponentation m 2 ec.p - (2 * P.x % ec.p)) ec.p
    ⟨x3, Mod ((m * Mod (P.x - x3) ec.p) % ec.p - P.y) ec.p⟩

/-- The loop of `ECC.ECDoubleAndAdd(P, n)` walks the digits of `bin(n)`
after the leading one, doubling and conditionally adding `P`.  Peeling
the last binary digit of `n` (recursing on `n / 2`) performs the same
digit walk; `n ≤ 1` leaves the initial copy `Q = P` untouched, exactly
as the empty loop does for `bin(0) = "0"` and `bin(1) = "1"`.  Fuel `n`
dominates the number of binary digits. -/
def dnaAux : ℕ → ECC → ECPoint → ℕ → ECPoint
  | 0, _, P, _ => P
  | fuel + 1, ec, P, n =>
    if n ≤ 1 then P
    else
      let Q := dnaAux fuel ec P (n / 2)
      let Q2 := ECPointDoubling ec Q
      if n % 2 = 1 then ECPointAddition ec Q2 P else Q2

/-- Method `ECC.ECDoubleAndAdd(P, n)`: binary double-and-add scalar multiplication. -/
def ECDoubleAndAdd (ec : ECC) (P : ECPoint) (n : ℕ) : ECPoint :=
  dnaAux n ec P n

/-- Method `ECC.ECOrder(a, b, p)`: starts at `p + 1` and for every `x ∈ [0, p)`
with `w = (x³ + a·x % p + b) % p` adds `+1` for a quadratic residue,
`-1` for a non-residue and `0` for `w = 0`.  The loop accumulates
independent per-`x` contributions, rendered here as a sum. -/
def ECOrder (a b p : ℤ) : ℤ :=
  p + 1 + ∑ x ∈ Finset.range p.toNat,
    (if (fastExponentation x 3 p + a * x % p + b) % p = 0 then 0
     else if isQuadraticResidue ((fastExponentation x 3 p + a * x % p + b) % p) p then 1
     else -1)

/-- The fixed small-prime list of `ECC.isPrime` for `n > 100000`. -/
def smallPrimesList : List ℕ :=
  [2, 3, 5, 7, 11, 13, 17, 19, 23, 29, 31, 37, 41, 43, 47, 53, 59, 61,
   67, 71, 73, 79, 83, 89, 97]

/-- The `while d <= n` trial-division loop of the `n <= 100000` branch of
`ECC.isPrime`, stepping `d` by 2.  Note the loop bound really is `n`,
not `sqrt(n)` (the computed `sqrtN` is unused in this branch). -/
def isPrimeSmallLoop : ℕ → ℕ → ℕ → Bool
  | 0, _, _ => true
  | fuel + 1, n, d =>
    if d ≤ n then (if n % d = 0 then false else isPrimeSmallLoop fuel n (d + 2))
    else true

/-- The `while d <= sqrtN` loop of the `n > 100000` branch of
`ECC.isPrime` (`d ≤ √n` is rendered as `d·d ≤ n`), stepping `d` by 2
from 101. -/
def isPrimeBigLoop : ℕ → ℕ → ℕ → Bool
  | 0, _, _ => true
  | fuel + 1, n, d =>
    if d * d ≤ n then (if n % d = 0 then false else isPrimeBigLoop fuel n (d + 2))
    else true

/-- Method `ECC.isPrime(n)`: for `n > 100000`, trial division by the fixed list
then odd `d` from 101 while `d ≤ √n`; otherwise membership in
`[2,3,5,7]`, divisibility by 2 and 3, then odd `d` from 3 while `d ≤ n`. -/
def isPrime (n : ℕ) : Bool :=
  if 100000 < n then
    if smallPrimesList.any (fun prime => n % prime == 0) then false
    else isPrimeBigLoop (n + 1) n 101
  else
    if [2, 3, 5, 7].contains n then true
    else if n % 2 = 0 || n % 3 = 0 then false
    else isPrimeSmallLoop (n + 1) n 3

/-- Method `SPDHEC.getPublicKey(generator, privateKey)`: scalar multiplication
of the generator. -/
def getPublicKey (ec : ECC) (generator : ECPoint) (privateKey : ℕ) : ECPoint :=
  ECDoubleAndAdd ec generator privateKey

/-- Method `SPDHEC.find_all_private_keys(publicKeyAlice, publicKeyBob, final_key)`:
the nested loops over `range(1, ecOrder)` collecting every pair whose
recomputed public keys match coordinate-wise and whose two shared points
both have y-coordinate `final_key`. -/
def find_all_private_keys (ec : ECC) (G publicKeyAlice publicKeyBob : ECPoint)
    (final_key : ℤ) : List (ℕ × ℕ) :=
  (List.range' 1 (ec.ecOrder.toNat - 1)).flatMap fun alice_priv =>
    (List.range' 1 (ec.ecOrder.toNat - 1)).filterMap fun bob_priv =>
      let test_pub_alice := getPublicKey ec G alice_priv
      let test_pub_bob := getPublicKey ec G bob_priv
      if test_pub_alice.x = publicKeyAlice.x ∧ test_pub_alice.y = publicKeyAlice.y ∧
          test_pub_bob.x = publicKeyBob.x ∧ test_pub_bob.y = publicKeyBob.y then
        let K_Alice := ECDoubleAndAdd ec publicKeyBob alice_priv
        let K_Bob := ECDoubleAndAdd ec publicKeyAlice bob_priv
        if K_Alice.y = final_key ∧ K_Bob.y = final_key then
          some (alice_priv, bob_priv)
        else none
      else none

/-- The curve equation predicate `y² ≡ x³ + A·x + B (mod p)` for a point
with integer coordinates; "P lies on the curve". -/
def onCurve (ec : ECC) (P : ECPoint) : Prop :=
  P.y ^ 2 % ec.p = (P.x ^ 3 + ec.A * P.x + ec.B) % ec.p

/-- Both coordinates normalized into `[0, p)`. -/
def inRange (ec : ECC) (P : ECPoint) : Prop :=
  0 ≤ P.x ∧ P.x < ec.p ∧ 0 ≤ P.y ∧ P.y < ec.p

instance (ec : ECC) (P : ECPoint) : Decidable (onCurve ec P) := by
  unfold onCurve; infer_instance

instance (ec : ECC) (P : ECPoint) : Decidable (inRange ec P) := by
  unfold inRange; infer_instance

/-- The short Weierstrass curve `y² = x³ + A·x + B` over `ZMod pn`
corresponding to a curve object with `ec.p = pn`. -/
def curveW (ec : ECC) (pn : ℕ) : WeierstrassCurve.Affine (ZMod pn) :=
  { a₁ := 0, a₂ := 0, a₃ := 0, a₄ := ((ec.A : ZMod pn)), a₆ := ((ec.B : ZMod pn)) }

/-- The integer-coordinate representation of a nonsingular rational
point: the infinity sentinel for `0`, and the canonical representatives
of the coordinates for an affine point. -/
def ptRepr {ec : ECC} {pn : ℕ} : (curveW ec pn).Point → ECPoint
  | WeierstrassCurve.Affine.Point.zero => ECPoint.inf
  | @WeierstrassCurve.Affine.Point.some _ _ _ ξ η _ => ⟨(ξ.val : ℤ), (η.val : ℤ)⟩

/-! ### Basic arithmetic lemmas -/

theorem Mod_eq_emod (a p : ℤ) (hp : 0 < p) : Mod a p = a % p := by
  unfold Mod
  rw [if_pos (Int.emod_nonneg a (ne_of_gt hp))]

theorem Mod_nonneg (a p : ℤ) (hp : 0 < p) : 0 ≤ Mod a p := by
  rw [Mod_eq_emod a p hp]
  exact Int.emod_nonneg a (ne_of_gt hp)

theorem Mod_lt (a p : ℤ) (hp : 0 < p) : Mod a p < p := by
  rw [Mod_eq_emod a p hp]
  exact Int.emod_lt_of_pos a hp

theorem fastExpAux_correct :
    ∀ (fuel b : ℕ) (a r p : ℤ), 2 ≤ p → b ≤ fuel → 0 ≤ r → r < p →
      fastExpAux fuel b a r p = r * a ^ b % p := by
  intro fuel
  induction fuel with
  | zero =>
    intro b a r p hp hb h0 h1
    have hb0 : b = 0 := Nat.le_zero.mp hb
    subst hb0
    simp only [fastExpAux, pow_zero, mul_one]
    exact (Int.emod_eq_of_lt h0 h1).symm
  | succ n ih =>
    intro b a r p hp hb h0 h1
    by_cases hb0 : b = 0
    · subst hb0
      simp only [fastExpAux, if_pos rfl, pow_zero, mul_one]
      exact (Int.emod_eq_of_lt h0 h1).symm
    · have hp0 : p ≠ 0 := by omega
      have hb2 : b / 2 ≤ n := by omega
      have hmod : ∀ x : ℤ, x % p % p = x % p := fun x =>
        Int.emod_emod_of_dvd x dvd_rfl
      unfold fastExpAux
      rw [if_neg hb0]
      by_cases hodd : b % 2 = 1
      · rw [if_pos hodd,
          ih (b / 2) ((a * a) % p) ((r * a) % p) p hp hb2
            (Int.emod_nonneg _ hp0) (Int.emod_lt_of_pos _ (by omega))]
        obtain ⟨k, hk⟩ : ∃ k, b = 2 * k + 1 := ⟨b / 2, by omega⟩
        have hk2 : b / 2 = k := by omega
        subst hk
        rw [hk2]
        have step : (r * a % p) * ((a * a) % p) ^ k % p
            = (r * a) * (a * a) ^ k % p :=
          Int.ModEq.mul (Int.emod_emod_of_dvd _ dvd_rfl)
            (Int.ModEq.pow k (Int.emod_emod_of_dvd _ dvd_rfl))
        rw [step]
        congr 1
        ring
      · have heven : b % 2 = 0 := by omega
        rw [if_neg hodd,
          ih (b / 2) ((a * a) % p) r p hp hb2 h0 h1]
        obtain ⟨k, hk⟩ : ∃ k, b = 2 * k := ⟨b / 2, by omega⟩
        have hk2 : b / 2 = k := by omega
        subst hk
        rw [hk2]
        have step : r * ((a * a) % p) ^ k % p = r * (a * a) ^ k % p :=
          Int.ModEq.mul (Int.ModEq.refl r)
            (Int.ModEq.pow k (Int.emod_emod_of_dvd _ dvd_rfl))
        rw [step]
        congr 1
        ring

theorem fastExponentation_correct (a : ℤ) (b : ℕ) (p : ℤ) (hp : 2 ≤ p) :
    fastExponentation a b p = a ^ b % p := by
  unfold fastExponentation
  rw [fastExpAux_correct b b a 1 p hp le_rfl (by omega) (by omega), one_mul]

theorem eeaGo_spec :
    ∀ (fuel : ℕ) (a b r1 r2 s1 s2 t1 t2 : ℤ),
      0 ≤ r1 → 0 ≤ r2 → r2.toNat < fuel →
      s1 * a + t1 * b = r1 → s2 * a + t2 * b = r2 →
      (eeaGo fuel r1 r2 s1 s2 t1 t2).d ∣ r1 ∧
        (eeaGo fuel r1 r2 s1 s2 t1 t2).d ∣ r2 ∧
        (eeaGo fuel r1 r2 s1 s2 t1 t2).S * a + (eeaGo fuel r1 r2 s1 s2 t1 t2).T * b
          = (eeaGo fuel r1 r2 s1 s2 t1 t2).d ∧
        0 ≤ (eeaGo fuel r1 r2 s1 s2 t1 t2).d := by
  intro fuel
  induction fuel with
  | zero =>
    intro a b r1 r2 s1 s2 t1 t2 h1 h2 hf
    omega
  | succ n ih =>
    intro a b r1 r2 s1 s2 t1 t2 h1 h2 hf e1 e2
    by_cases hpos : 0 < r2
    · have hr2ne : r2 ≠ 0 := by omega
      have hrem : r1 - r1 / r2 * r2 = r1 % r2 := by
        rw [Int.emod_def]; ring
      have hremnn : 0 ≤ r1 - r1 / r2 * r2 := by
        rw [hrem]; exact Int.emod_nonneg _ hr2ne
      have hremlt : r1 - r1 / r2 * r2 < r2 := by
        rw [hrem]; exact Int.emod_lt_of_pos _ hpos
      have hfuel : (r1 - r1 / r2 * r2).toNat < n := by omega
      have e2' : (s1 - r1 / r2 * s2) * a + (t1 - r1 / r2 * t2) * b
          = r1 - r1 / r2 * r2 := by linear_combination e1 - r1 / r2 * e2
      have hres := ih a b r2 (r1 - r1 / r2 * r2) s2 (s1 - r1 / r2 * s2) t2
        (t1 - r1 / r2 * t2) h2 hremnn hfuel e2 e2'
      unfold eeaGo
      rw [if_pos hpos]
      refine ⟨?_, hres.1, hres.2.2⟩
      have hdr2 := hres.1
      have hdrem := hres.2.1
      have : (eeaGo n r2 (r1 - r1 / r2 * r2) s2 (s1 - r1 / r2 * s2) t2
          (t1 - r1 / r2 * t2)).d ∣ r1 / r2 * r2 :=
        Dvd.dvd.mul_left hdr2 (r1 / r2)
      have h' := dvd_add this hdrem
      have hr1eq : r1 / r2 * r2 + (r1 - r1 / r2 * r2) = r1 := by ring
      rwa [hr1eq] at h'
    · have hr20 : r2 = 0 := by omega
      unfold eeaGo
      rw [if_neg hpos]
      exact ⟨dvd_refl r1, hr20 ▸ dvd_zero r1, e1, h1⟩

theorem ExtendedEuclideanAlgorithm_spec (a b : ℤ) (ha : 0 ≤ a) (hb : 0 ≤ b) :
    (ExtendedEuclideanAlgorithm a b).d ∣ a ∧
      (ExtendedEuclideanAlgorithm a b).d ∣ b ∧
      (ExtendedEuclideanAlgorithm a b).S * a + (ExtendedEuclideanAlgorithm a b).T * b
        = (ExtendedEuclideanAlgorithm a b).d ∧
      0 ≤ (ExtendedEuclideanAlgorithm a b).d :=
  eeaGo_spec (b.toNat + 1) a b a b 1 0 0 1 ha hb (by omega) (by ring) (by ring)

theorem MultiplicativeInverse_spec (a n : ℤ) (ha : 0 ≤ a) (hn : 0 < n)
    (h : Int.gcd a n = 1) :
    0 ≤ MultiplicativeInverse a n ∧ MultiplicativeInverse a n < n ∧
      (MultiplicativeInverse a n * a) % n = 1 % n := by
  obtain ⟨hd1, hd2, hbez, hd0⟩ := ExtendedEuclideanAlgorithm_spec a n ha hn.le
  have hdvd : (ExtendedEuclideanAlgorithm a n).d ∣ ((Int.gcd a n : ℕ) : ℤ) :=
    Int.dvd_gcd hd1 hd2
  rw [h] at hdvd
  have hone : (ExtendedEuclideanAlgorithm a n).d = 1 := by
    rcases Int.isUnit_iff.mp (isUnit_of_dvd_one (by exact_mod_cast hdvd)) with h1 | h1 <;>
      omega
  unfold MultiplicativeInverse
  simp only [hone, eq_self_iff_true, if_true]
  refine ⟨Mod_nonneg _ n hn, Mod_lt _ n hn, ?_⟩
  rw [Mod_eq_emod _ n hn]
  have h1 : (ExtendedEuclideanAlgorithm a n).S % n * a % n
      = (ExtendedEuclideanAlgorithm a n).S * a % n :=
    Int.ModEq.mul_right a (Int.emod_emod_of_dvd _ dvd_rfl)
  rw [h1]
  have h2 : (ExtendedEuclideanAlgorithm a n).S * a
      = 1 + n * (-(ExtendedEuclideanAlgorithm a n).T) := by
    rw [hone] at hbez; linear_combination hbez
  rw [h2, Int.add_mul_emod_self_left]

/-! ### Output normalization of the group-law routines -/

theorem ECAdditionFinish_inRange (ec : ECC) (hp : 0 < ec.p) (P1 P2 : ECPoint)
    (m : ℤ) : inRange ec (ECAdditionFinish ec P1 P2 m) :=
  ⟨Mod_nonneg _ _ hp, Mod_lt _ _ hp, Mod_nonneg _ _ hp, Mod_lt _ _ hp⟩

theorem inRange_not_sentinel (ec : ECC) (R : ECPoint) (h : inRange ec R) :
    isEqual R ECPoint.inf = false ∧ isAdditiveInverse ec R ECPoint.inf = false := by
  obtain ⟨hx0, hx1, hy0, hy1⟩ := h
  have hx : ¬ R.x = (-1 : ℤ) := by omega
  constructor
  · simp [isEqual, ECPoint.inf, hx]
  · simp [isAdditiveInverse, ECPoint.inf, hx]

/-- C10: for a curve with positive modulus and arbitrary integer input
points, `ECPointAddition` and `ECPointDoubling` return either exactly the
`(-1, -1)` infinity sentinel or a point with both coordinates normalized
into `[0, p)`; consequently a finite result is never mistaken for the
sentinel by the coordinate-equality tests `isEqual` / `isAdditiveInverse`. -/
theorem C10_output_normalization (ec : ECC) (hp : 0 < ec.p) (P1 P2 P : ECPoint) :
    (ECPointAddition ec P1 P2 = ECPoint.inf ∨
      (inRange ec (ECPointAddition ec P1 P2) ∧
        isEqual (ECPointAddition ec P1 P2) ECPoint.inf = false ∧
        isAdditiveInverse ec (ECPointAddition ec P1 P2) ECPoint.inf = false)) ∧
    (ECPointDoubling ec P = ECPoint.inf ∨
      (inRange ec (ECPointDoubling ec P) ∧
        isEqual (ECPointDoubling ec P) ECPoint.inf = false ∧
        isAdditiveInverse ec (ECPointDoubling ec P) ECPoint.inf = false)) := by
  constructor
  · unfold ECPointAddition
    split_ifs
    · exact Or.inl rfl
    · exact Or.inl rfl
    · exact Or.inr ⟨ECAdditionFinish_inRange ec hp P1 P2 _,
        inRange_not_sentinel ec _ (ECAdditionFinish_inRange ec hp P1 P2 _)⟩
    · exact Or.inr ⟨ECAdditionFinish_inRange ec hp P1 P2 _,
        inRange_not_sentinel ec _ (ECAdditionFinish_inRange ec hp P1 P2 _)⟩
  · unfold ECPointDoubling
    split_ifs
    · exact Or.inl rfl
    · have hr : inRange ec
          ⟨Mod (fastExponentation ((3 * fastExponentation P.x 2 ec.p % ec.p + ec.A) % ec.p *
              (MultiplicativeInverse (2 * P.y % ec.p) ec.p % ec.p) % ec.p) 2 ec.p -
              2 * P.x % ec.p) ec.p,
            Mod ((((3 * fastExponentation P.x 2 ec.p % ec.p + ec.A) % ec.p *
              (MultiplicativeInverse (2 * P.y % ec.p) ec.p % ec.p) % ec.p) *
              Mod (P.x - Mod (fastExponentation ((3 * fastExponentation P.x 2 ec.p % ec.p + ec.A) % ec.p *
              (MultiplicativeInverse (2 * P.y % ec.p) ec.p % ec.p) % ec.p) 2 ec.p -
              2 * P.x % ec.p) ec.p) ec.p) % ec.p - P.y) ec.p⟩ :=
        ⟨Mod_nonneg _ _ hp, Mod_lt _ _ hp, Mod_nonneg _ _ hp, Mod_lt _ _ hp⟩
      exact Or.inr ⟨hr, inRange_not_sentinel ec _ hr⟩

/-- C10 witness: the theorem instantiated at the toy curve
`y² = x³ + 3x + 2 (mod 5)` and concrete input points. -/
theorem C10_output_normalization_witness :
    (ECPointAddition ⟨3, 2, 5, 5⟩ ⟨3, 2⟩ ⟨-5, 7⟩ = ECPoint.inf ∨
      (inRange ⟨3, 2, 5, 5⟩ (ECPointAddition ⟨3, 2, 5, 5⟩ ⟨3, 2⟩ ⟨-5, 7⟩) ∧
        isEqual (ECPointAddition ⟨3, 2, 5, 5⟩ ⟨3, 2⟩ ⟨-5, 7⟩) ECPoint.inf = false ∧
        isAdditiveInverse ⟨3, 2, 5, 5⟩ (ECPointAddition ⟨3, 2, 5, 5⟩ ⟨3, 2⟩ ⟨-5, 7⟩)
          ECPoint.inf = false)) ∧
    (ECPointDoubling ⟨3, 2, 5, 5⟩ ⟨2, 2⟩ = ECPoint.inf ∨
      (inRange ⟨3, 2, 5, 5⟩ (ECPointDoubling ⟨3, 2, 5, 5⟩ ⟨2, 2⟩) ∧
        isEqual (ECPointDoubling ⟨3, 2, 5, 5⟩ ⟨2, 2⟩) ECPoint.inf = false ∧
        isAdditiveInverse ⟨3, 2, 5, 5⟩ (ECPointDoubling ⟨3, 2, 5, 5⟩ ⟨2, 2⟩)
          ECPoint.inf = false)) :=
  C10_output_normalization ⟨3, 2, 5, 5⟩ (by norm_num) ⟨3, 2⟩ ⟨-5, 7⟩ ⟨2, 2⟩

/-! ### Identity, zero-scalar and primality claims -/

/-- C2: the claim `ECPointAddition(P, infinity) = P` fails on the code.
On the validated toy curve `y² = x³ + 3x + 2 (mod 5)` (non-singular, of
prime computed order 5) with the on-curve point `P = (1, 1)`, the code
treats the `(-1, -1)` sentinel as an ordinary point and computes the
chord through `P` and `(-1, -1)`, returning `(1, 4) ≠ P`. -/
theorem C2_identity_fails_at_input :
    isECNonSingular 3 2 5 = true ∧ ECOrder 3 2 5 = 5 ∧ Nat.Prime 5 ∧
      onCurve ⟨3, 2, 5, 5⟩ ⟨1, 1⟩ ∧ inRange ⟨3, 2, 5, 5⟩ ⟨1, 1⟩ ∧
      ECPointAddition ⟨3, 2, 5, 5⟩ ⟨1, 1⟩ ECPoint.inf = ⟨1, 4⟩ ∧
      (⟨1, 4⟩ : ECPoint) ≠ ⟨1, 1⟩ := by decide

/-- C3 counterexample: on the same validated toy curve with the on-curve
point `(1, 1)`, `ECDoubleAndAdd(P, 0)` returns `P` itself (the loop over
the digits of `bin(0)` never runs), not the point at infinity. -/
theorem C3_zero_scalar_counterexample :
    isECNonSingular 3 2 5 = true ∧ ECOrder 3 2 5 = 5 ∧ Nat.Prime 5 ∧
      onCurve ⟨3, 2, 5, 5⟩ ⟨1, 1⟩ ∧ inRange ⟨3, 2, 5, 5⟩ ⟨1, 1⟩ ∧
      ECDoubleAndAdd ⟨3, 2, 5, 5⟩ ⟨1, 1⟩ 0 ≠ ECPoint.inf := by decide

/-- C3 amended: `ECDoubleAndAdd(P, 0)` returns the input point `P`
unchanged (for every curve object and every point), because
`bin(0) = "0"` has a single digit and the double-and-add loop body is
never entered. -/
theorem C3_zero_scalar_returns_input (ec : ECC) (P : ECPoint) :
    ECDoubleAndAdd ec P 0 = P := rfl

/-- C4: the claim that `isPrime(n)` decides primality for every `n ≥ 2`
fails: the `n ≤ 100000` branch trial-divides by odd `d` up to `n`
itself (`while d <= n`), so `d = n` reports every odd prime `> 7` as
composite.  At the prime `n = 11` the code returns `False`. -/
theorem C4_isPrime_wrong_at_11 : isPrime 11 = false ∧ Nat.Prime 11 := by decide

/-- C9: for a prime `p ≡ 3 (mod 4)` and a quadratic residue
`a ∈ [0, p)` (in the sense of Euler's criterion), the value
`r = ModularSquareRoot(a, p)` satisfies `r·r mod p = a`, and `r` is
exactly `a^((p+1)/4) mod p`. -/
theorem C9_modular_square_root_round_trip (p : ℕ) (hp : Nat.Prime p)
    (h4 : p % 4 = 3) (a : ℤ) (ha0 : 0 ≤ a) (hap : a < (p : ℤ))
    (hres : a ^ ((p - 1) / 2) % (p : ℤ) = 1) :
    ModularSquareRoot a (p : ℤ) * ModularSquareRoot a (p : ℤ) % (p : ℤ) = a ∧
      ModularSquareRoot a (p : ℤ) = a ^ ((p + 1) / 4) % (p : ℤ) := by
  have hp2 : 2 ≤ (p : ℤ) := by exact_mod_cast hp.two_le
  have hexp : (((p : ℤ) + 1) / 4).toNat = (p + 1) / 4 := by omega
  have hmsr : ModularSquareRoot a (p : ℤ) = a ^ ((p + 1) / 4) % (p : ℤ) := by
    unfold ModularSquareRoot
    rw [fastExponentation_correct _ _ _ hp2, hexp]
  refine ⟨?_, hmsr⟩
  rw [hmsr]
  rw [← Int.mul_emod, ← pow_add]
  have hexp2 : (p + 1) / 4 + (p + 1) / 4 = (p - 1) / 2 + 1 := by omega
  rw [hexp2, pow_succ, Int.mul_emod, hres, one_mul,
    Int.emod_eq_of_lt ha0 hap, Int.emod_eq_of_lt ha0 hap]

/-- C9 witness: `p = 7`, `a = 2` (a residue: `2³ ≡ 1 (mod 7)`), with
`ModularSquareRoot 2 7 = 4` and `4·4 mod 7 = 2`. -/
theorem C9_modular_square_root_round_trip_witness :
    ModularSquareRoot 2 7 * ModularSquareRoot 2 7 % 7 = 2 ∧
      ModularSquareRoot 2 7 = 2 ^ ((7 + 1) / 4) % 7 :=
  C9_modular_square_root_round_trip 7 (by norm_num) (by norm_num) 2
    (by norm_num) (by norm_num) (by decide)

/-! ### Doubling consistency -/

theorem ECPointDoubling_eq_addition (pn : ℕ) (hp : Nat.Prime pn) (hodd : pn % 2 = 1)
    (ec : ECC) (hecp : ec.p = (pn : ℤ)) (P : ECPoint) :
    ECPointDoubling ec P = ECPointAddition ec P P := by
  have hpn2 : 2 ≤ pn := hp.two_le
  have hppos : 0 < ec.p := by rw [hecp]; omega
  have hEq : isEqual P P = true := by simp [isEqual]
  by_cases hy : P.y = 0
  · have hAI : isAdditiveInverse ec P P = false := by
      have hne : ¬ (P.y = ec.p - P.y) := by rw [hecp, hy]; omega
      simp [isAdditiveInverse, hne]
    unfold ECPointDoubling ECPointAddition
    rw [if_pos hy, hAI]
    simp only [Bool.false_eq_true, if_false, hEq, if_true, if_pos hy]
  · have hAI : isAdditiveInverse ec P P = false := by
      have hne : ¬ (P.y = ec.p - P.y) := by rw [hecp]; omega
      simp [isAdditiveInverse, hne]
    unfold ECPointDoubling ECPointAddition ECAdditionFinish
    rw [if_neg hy, hAI]
    simp only [Bool.false_eq_true, if_false, hEq, if_true, if_neg hy]
    have hx3 : Mod (fastExponentation
        ((3 * fastExponentation P.x 2 ec.p % ec.p + ec.A) % ec.p *
          (MultiplicativeInverse (2 * P.y % ec.p) ec.p % ec.p) % ec.p) 2 ec.p -
        2 * P.x % ec.p) ec.p
        = Mod (fastExponentation
        ((3 * fastExponentation P.x 2 ec.p % ec.p + ec.A) % ec.p *
          (MultiplicativeInverse (2 * P.y % ec.p) ec.p % ec.p) % ec.p) 2 ec.p -
        P.x - P.x) ec.p := by
      rw [Mod_eq_emod _ _ hppos, Mod_eq_emod _ _ hppos]
      have h1 : ∀ A : ℤ, A - P.x - P.x = A - 2 * P.x := fun A => by ring
      rw [h1]
      rw [Int.sub_emod, Int.sub_emod _ (2 * P.x), Int.emod_emod_of_dvd _ dvd_rfl]
    exact ECPoint.ext hx3 (by rw [hx3])

/-- C8: on a `Ready` curve with odd prime modulus, for every on-curve
point with normalized coordinates the three routes
`ECDoubleAndAdd(P, 2)`, `ECPointDoubling(P)` and `ECPointAddition(P, P)`
agree, and all of them return the infinity sentinel when `P.y = 0`. -/
theorem C8_doubling_consistency (pn : ℕ) (hp : Nat.Prime pn) (hodd : pn % 2 = 1)
    (ec : ECC) (hecp : ec.p = (pn : ℤ)) (P : ECPoint)
    (_hcur : onCurve ec P) (_hrange : inRange ec P) :
    ECDoubleAndAdd ec P 2 = ECPointDoubling ec P ∧
      ECPointDoubling ec P = ECPointAddition ec P P ∧
      (P.y = 0 → ECPointDoubling ec P = ECPoint.inf) :=
  ⟨rfl, ECPointDoubling_eq_addition pn hp hodd ec hecp P,
    fun hy => by unfold ECPointDoubling; rw [if_pos hy]⟩

/-- C8 witness: the theorem instantiated at the toy curve
`y² = x³ + 3x + 2 (mod 5)` and the on-curve point `(1, 1)`. -/
theorem C8_doubling_consistency_witness :
    ECDoubleAndAdd ⟨3, 2, 5, 5⟩ ⟨1, 1⟩ 2 = ECPointDoubling ⟨3, 2, 5, 5⟩ ⟨1, 1⟩ ∧
      ECPointDoubling ⟨3, 2, 5, 5⟩ ⟨1, 1⟩ = ECPointAddition ⟨3, 2, 5, 5⟩ ⟨1, 1⟩ ⟨1, 1⟩ ∧
      ((⟨1, 1⟩ : ECPoint).y = 0 → ECPointDoubling ⟨3, 2, 5, 5⟩ ⟨1, 1⟩ = ECPoint.inf) :=
  C8_doubling_consistency 5 (by norm_num) (by norm_num) ⟨3, 2, 5, 5⟩ rfl ⟨1, 1⟩
    (by decide) (by decide)

/-! ### Point counting -/

/-- C7: for an odd prime `p`, `ECOrder(a, b, p)` (running count starting
at `p + 1`, `+1` per residue and `-1` per non-residue) equals the
accumulate-then-add-one count of the specification: `1` point for
`w = 0`, two points when `w^((p-1)/2) mod p = 1`, none otherwise. -/
theorem C7_point_count (p : ℕ) (hp : Nat.Prime p) (hodd : p % 2 = 1) (a b : ℤ) :
    ECOrder a b (p : ℤ) =
      1 + ∑ x ∈ Finset.range p,
        (if ((x : ℤ) ^ 3 + a * x + b) % (p : ℤ) = 0 then 1
         else if (((x : ℤ) ^ 3 + a * x + b) % (p : ℤ)) ^ ((p - 1) / 2) % (p : ℤ) = 1
           then 2 else 0) := by
  have hp2 : 2 ≤ (p : ℤ) := by exact_mod_cast hp.two_le
  have hqr : ∀ w : ℤ, (isQuadraticResidue w (p : ℤ) = true)
      ↔ w ^ ((p - 1) / 2) % (p : ℤ) = 1 := by
    intro w
    unfold isQuadraticResidue
    rw [beq_iff_eq, fastExponentation_correct _ _ _ hp2]
    have he : (((p : ℤ) - 1) / 2).toNat = (p - 1) / 2 := by omega
    rw [he]
  have hw : ∀ x : ℕ, (fastExponentation (x : ℤ) 3 (p : ℤ) + a * x % (p : ℤ) + b) % (p : ℤ)
      = ((x : ℤ) ^ 3 + a * x + b) % (p : ℤ) := by
    intro x
    rw [fastExponentation_correct _ _ _ hp2]
    conv_lhs => rw [Int.add_emod, Int.add_emod ((x : ℤ) ^ 3 % (p : ℤ)) (a * x % (p : ℤ))]
    conv_rhs => rw [Int.add_emod, Int.add_emod ((x : ℤ) ^ 3) (a * x)]
    rw [Int.emod_emod_of_dvd _ dvd_rfl, Int.emod_emod_of_dvd _ dvd_rfl]
  have key : ∀ x ∈ Finset.range p,
      (if ((x : ℤ) ^ 3 + a * x + b) % (p : ℤ) = 0 then (1 : ℤ)
       else if (((x : ℤ) ^ 3 + a * x + b) % (p : ℤ)) ^ ((p - 1) / 2) % (p : ℤ) = 1
         then 2 else 0)
      = (if (fastExponentation (x : ℤ) 3 (p : ℤ) + a * x % (p : ℤ) + b) % (p : ℤ) = 0 then 0
         else if isQuadraticResidue
             ((fastExponentation (x : ℤ) 3 (p : ℤ) + a * x % (p : ℤ) + b) % (p : ℤ)) (p : ℤ)
           then 1 else -1) + 1 := by
    intro x _
    rw [hw x]
    by_cases h0 : ((x : ℤ) ^ 3 + a * x + b) % (p : ℤ) = 0
    · rw [if_pos h0, if_pos h0]; norm_num
    · rw [if_neg h0, if_neg h0]
      by_cases h1 : (((x : ℤ) ^ 3 + a * x + b) % (p : ℤ)) ^ ((p - 1) / 2) % (p : ℤ) = 1
      · rw [if_pos h1, if_pos ((hqr _).mpr h1)]; norm_num
      · rw [if_neg h1, if_neg (fun hc => h1 ((hqr _).mp hc))]; norm_num
  unfold ECOrder
  rw [Finset.sum_congr rfl key, Finset.sum_add_distrib, Finset.sum_const,
    Finset.card_range, Int.toNat_natCast]
  ring

/-- C7 witness: the theorem instantiated at `p = 5`, `a = 3`, `b = 2`. -/
theorem C7_point_count_witness :
    ECOrder 3 2 (5 : ℤ) =
      1 + ∑ x ∈ Finset.range 5,
        (if ((x : ℤ) ^ 3 + 3 * x + 2) % (5 : ℤ) = 0 then 1
         else if (((x : ℤ) ^ 3 + 3 * x + 2) % (5 : ℤ)) ^ ((5 - 1) / 2) % (5 : ℤ) = 1
           then 2 else 0) :=
  C7_point_count 5 (by norm_num) (by norm_num) 3 2

/-! ### Casting the integer computations into `ZMod pn` -/

theorem intCast_emod_self (pn : ℕ) (a : ℤ) :
    ((a % (pn : ℤ) : ℤ) : ZMod pn) = (a : ZMod pn) := by
  rw [ZMod.intCast_eq_intCast_iff']
  exact Int.emod_emod_of_dvd a dvd_rfl

theorem intCast_inj_of_range (pn : ℕ) (a b : ℤ) (ha0 : 0 ≤ a) (ha1 : a < (pn : ℤ))
    (hb0 : 0 ≤ b) (hb1 : b < (pn : ℤ)) (h : (a : ZMod pn) = (b : ZMod pn)) : a = b := by
  rw [ZMod.intCast_eq_intCast_iff'] at h
  rwa [Int.emod_eq_of_lt ha0 ha1, Int.emod_eq_of_lt hb0 hb1] at h

theorem intCast_val_cast (pn : ℕ) [NeZero pn] (z : ZMod pn) :
    (((z.val : ℤ)) : ZMod pn) = z := by
  rw [Int.cast_natCast, ZMod.natCast_val, ZMod.cast_id]

theorem natCast_val_cast (pn : ℕ) [NeZero pn] (z : ZMod pn) :
    ((z.val : ℕ) : ZMod pn) = z := by
  rw [ZMod.natCast_val, ZMod.cast_id]

theorem val_intCast_of_range (pn : ℕ) [NeZero pn] (a : ℤ) (ha0 : 0 ≤ a)
    (ha1 : a < (pn : ℤ)) : (((a : ZMod pn).val : ℤ)) = a := by
  have h1 : a = ((a.toNat : ℕ) : ℤ) := (Int.toNat_of_nonneg ha0).symm
  rw [h1, Int.cast_natCast, ZMod.val_cast_of_lt (by omega)]

theorem val_cast_range (pn : ℕ) [NeZero pn] (z : ZMod pn) :
    0 ≤ ((z.val : ℤ)) ∧ ((z.val : ℤ)) < (pn : ℤ) :=
  ⟨Int.ofNat_nonneg z.val, by exact_mod_cast z.val_lt⟩

theorem intCast_fastExp (pn : ℕ) (hpn : 2 ≤ pn) (a : ℤ) (k : ℕ) :
    ((fastExponentation a k (pn : ℤ) : ℤ) : ZMod pn) = (a : ZMod pn) ^ k := by
  rw [fastExponentation_correct _ _ _ (by exact_mod_cast hpn), intCast_emod_self,
    Int.cast_pow]

theorem intCast_Mod (pn : ℕ) (hpn : 0 < pn) (a : ℤ) :
    ((Mod a (pn : ℤ) : ℤ) : ZMod pn) = (a : ZMod pn) := by
  rw [Mod_eq_emod _ _ (by exact_mod_cast hpn), intCast_emod_self]

theorem intCast_MultiplicativeInverse (pn : ℕ) [Fact (Nat.Prime pn)] (a : ℤ)
    (ha : 0 ≤ a) (hne : (a : ZMod pn) ≠ 0) :
    ((MultiplicativeInverse a (pn : ℤ) : ℤ) : ZMod pn) = (a : ZMod pn)⁻¹ := by
  have hp : Nat.Prime pn := Fact.out
  have hgcd : Int.gcd a (pn : ℤ) = 1 := by
    have hnd : ¬ ((pn : ℤ) ∣ a) := fun hdvd =>
      hne ((ZMod.intCast_zmod_eq_zero_iff_dvd a pn).mpr hdvd)
    have hnd2 : ¬ (pn ∣ a.natAbs) := fun hd =>
      hnd (Int.dvd_natAbs.mp (Int.natCast_dvd_natCast.mpr hd))
    have hcop : Nat.Coprime pn a.natAbs := (Nat.Prime.coprime_iff_not_dvd hp).mpr hnd2
    have : Nat.gcd a.natAbs pn = 1 := Nat.coprime_comm.mp hcop
    unfold Int.gcd
    rwa [Int.natAbs_ofNat]
  obtain ⟨h0, hlt, hmul⟩ := MultiplicativeInverse_spec a (pn : ℤ) ha
    (by exact_mod_cast hp.pos) hgcd
  have hc : ((MultiplicativeInverse a (pn : ℤ) * a : ℤ) : ZMod pn) = ((1 : ℤ) : ZMod pn) := by
    rw [ZMod.intCast_eq_intCast_iff']
    exact hmul
  push_cast at hc
  exact eq_inv_of_mul_eq_one_left hc

theorem two_ne_zero_zmod (pn : ℕ) (hp : Nat.Prime pn) (hodd : pn % 2 = 1) :
    (2 : ZMod pn) ≠ 0 := by
  intro h
  have h2 : ((2 : ℕ) : ZMod pn) = 0 := by exact_mod_cast h
  have hdvd : pn ∣ 2 := (ZMod.natCast_zmod_eq_zero_iff_dvd 2 pn).mp h2
  have := Nat.le_of_dvd (by norm_num) hdvd
  have := hp.two_le
  interval_cases pn <;> omega

/-! ### The Weierstrass curve corresponding to a curve object -/

theorem curveW_equation (ec : ECC) (pn : ℕ) (ξ η : ZMod pn) :
    (curveW ec pn).Equation ξ η ↔
      η ^ 2 = ξ ^ 3 + (ec.A : ZMod pn) * ξ + (ec.B : ZMod pn) := by
  rw [WeierstrassCurve.Affine.equation_iff]
  simp only [curveW, zero_mul, mul_zero, add_zero, zero_add]

theorem curveW_negY (ec : ECC) (pn : ℕ) (ξ η : ZMod pn) :
    (curveW ec pn).negY ξ η = -η := by
  simp only [WeierstrassCurve.Affine.negY, curveW, zero_mul, sub_zero]

theorem curveW_Δ (ec : ECC) (pn : ℕ) :
    (curveW ec pn).Δ =
      -16 * (4 * (ec.A : ZMod pn) ^ 3 + 27 * (ec.B : ZMod pn) ^ 2) := by
  simp only [WeierstrassCurve.Δ, WeierstrassCurve.b₂, WeierstrassCurve.b₄,
    WeierstrassCurve.b₆, WeierstrassCurve.b₈, curveW]
  ring

theorem curveW_Δ_ne_zero (pn : ℕ) [Fact (Nat.Prime pn)] (hodd : pn % 2 = 1)
    (ec : ECC) (hecp : ec.p = (pn : ℤ))
    (hns : isECNonSingular ec.A ec.B ec.p = true) : (curveW ec pn).Δ ≠ 0 := by
  have hp : Nat.Prime pn := Fact.out
  have hpn2 : 2 ≤ pn := hp.two_le
  have hpz : (0 : ℤ) < (pn : ℤ) := by exact_mod_cast hp.pos
  intro h
  rw [curveW_Δ] at h
  have h16 : (-16 : ZMod pn) ≠ 0 := by
    have h2 : (2 : ZMod pn) ≠ 0 := two_ne_zero_zmod pn hp hodd
    have : (16 : ZMod pn) = 2 ^ 4 := by norm_num
    rw [neg_ne_zero, this]
    exact pow_ne_zero 4 h2
  have hfac : 4 * (ec.A : ZMod pn) ^ 3 + 27 * (ec.B : ZMod pn) ^ 2 = 0 :=
    (mul_eq_zero.mp h).resolve_left h16
  unfold isECNonSingular at hns
  rw [bne_iff_ne] at hns
  apply hns
  rw [hecp]
  have hcast : (((4 * fastExponentation ec.A 3 (pn : ℤ) % (pn : ℤ) +
      27 * fastExponentation ec.B 2 (pn : ℤ) % (pn : ℤ)) % (pn : ℤ) : ℤ) : ZMod pn)
      = 4 * (ec.A : ZMod pn) ^ 3 + 27 * (ec.B : ZMod pn) ^ 2 := by
    rw [intCast_emod_self, Int.cast_add, intCast_emod_self, intCast_emod_self,
      Int.cast_mul, Int.cast_mul, intCast_fastExp pn hpn2, intCast_fastExp pn hpn2]
    norm_num
  have hz : (((4 * fastExponentation ec.A 3 (pn : ℤ) % (pn : ℤ) +
      27 * fastExponentation ec.B 2 (pn : ℤ) % (pn : ℤ)) % (pn : ℤ) : ℤ) : ZMod pn)
      = ((0 : ℤ) : ZMod pn) := by
    rw [hcast, hfac, Int.cast_zero]
  exact intCast_inj_of_range pn _ 0
    (Int.emod_nonneg _ (by omega)) (Int.emod_lt_of_pos _ hpz) le_rfl hpz hz

theorem nonsingular_of_code (pn : ℕ) [Fact (Nat.Prime pn)] (hodd : pn % 2 = 1)
    (ec : ECC) (hecp : ec.p = (pn : ℤ))
    (hns : isECNonSingular ec.A ec.B ec.p = true) (G : ECPoint)
    (hG : onCurve ec G) :
    (curveW ec pn).Nonsingular ((G.x : ZMod pn)) ((G.y : ZMod pn)) := by
  refine WeierstrassCurve.Affine.nonsingular_of_Δ_ne_zero (curveW ec pn) ?_
    (curveW_Δ_ne_zero pn hodd ec hecp hns)
  rw [curveW_equation]
  unfold onCurve at hG
  rw [hecp] at hG
  have hc := congrArg (fun z : ℤ => ((z : ZMod pn))) hG
  simp only at hc
  rw [intCast_emod_self, intCast_emod_self] at hc
  push_cast at hc
  exact hc

theorem ptRepr_zero (ec : ECC) (pn : ℕ) :
    ptRepr (0 : (curveW ec pn).Point) = ECPoint.inf := rfl

theorem ptRepr_some (ec : ECC) (pn : ℕ) {ξ η : ZMod pn}
    (h : (curveW ec pn).Nonsingular ξ η) :
    ptRepr (WeierstrassCurve.Affine.Point.some h) = ⟨((ξ.val : ℤ)), ((η.val : ℤ))⟩ := rfl

theorem ptRepr_roundtrip (pn : ℕ) [NeZero pn] (ec : ECC) (hecp : ec.p = (pn : ℤ))
    (G : ECPoint) (hr : inRange ec G)
    (h : (curveW ec pn).Nonsingular ((G.x : ZMod pn)) ((G.y : ZMod pn))) :
    ptRepr (WeierstrassCurve.Affine.Point.some h) = G := by
  obtain ⟨hx0, hx1, hy0, hy1⟩ := hr
  rw [hecp] at hx1 hy1
  exact ECPoint.ext (val_intCast_of_range pn G.x hx0 hx1)
    (val_intCast_of_range pn G.y hy0 hy1)

theorem val_eq_of_cast (pn : ℕ) [NeZero pn] (v : ℤ) (z : ZMod pn) (h0 : 0 ≤ v)
    (h1 : v < (pn : ℤ)) (hc : ((v : ℤ) : ZMod pn) = z) : ((z.val : ℤ)) = v := by
  rw [← hc, val_intCast_of_range pn v h0 h1]

theorem tangentM_cast (pn : ℕ) [Fact (Nat.Prime pn)] (hodd : pn % 2 = 1) (ec : ECC)
    (hecp : ec.p = (pn : ℤ)) (ξ η : ZMod pn) (hη : η ≠ 0) :
    (((3 * fastExponentation ((ξ.val : ℤ)) 2 ec.p % ec.p + ec.A) % ec.p *
        (MultiplicativeInverse (2 * ((η.val : ℤ)) % ec.p) ec.p % ec.p) % ec.p : ℤ) : ZMod pn)
      = (3 * ξ ^ 2 + (ec.A : ZMod pn)) * (2 * η)⁻¹ := by
  have hp : Nat.Prime pn := Fact.out
  haveI : NeZero pn := ⟨hp.pos.ne'⟩
  have hpn2 : 2 ≤ pn := hp.two_le
  have h2η : (2 : ZMod pn) * η ≠ 0 := mul_ne_zero (two_ne_zero_zmod pn hp hodd) hη
  rw [hecp]
  have hyc : ((2 * ((η.val : ℤ)) % (pn : ℤ) : ℤ) : ZMod pn) = 2 * η := by
    rw [intCast_emod_self, Int.cast_mul, intCast_val_cast]
    norm_num
  have hinv : ((MultiplicativeInverse (2 * ((η.val : ℤ)) % (pn : ℤ)) (pn : ℤ) : ℤ) : ZMod pn)
      = (2 * η)⁻¹ := by
    rw [intCast_MultiplicativeInverse pn _ (Int.emod_nonneg _ (by positivity))
      (by rw [hyc]; exact h2η), hyc]
  push_cast [intCast_emod_self, intCast_fastExp pn hpn2, intCast_val_cast,
    natCast_val_cast, hinv]
  ring

theorem chordM_cast (pn : ℕ) [Fact (Nat.Prime pn)] (ec : ECC)
    (hecp : ec.p = (pn : ℤ)) (ξ₁ η₁ ξ₂ η₂ : ZMod pn) (hx : ξ₁ ≠ ξ₂) :
    ((Mod (((η₂.val : ℤ)) - ((η₁.val : ℤ))) ec.p *
        MultiplicativeInverse (Mod (((ξ₂.val : ℤ)) - ((ξ₁.val : ℤ))) ec.p) ec.p % ec.p : ℤ)
        : ZMod pn)
      = (η₁ - η₂) / (ξ₁ - ξ₂) := by
  have hp : Nat.Prime pn := Fact.out
  haveI : NeZero pn := ⟨hp.pos.ne'⟩
  have hpz : 0 < pn := hp.pos
  have hpzi : (0 : ℤ) < (pn : ℤ) := by exact_mod_cast hpz
  have hsub : (ξ₂ : ZMod pn) - ξ₁ ≠ 0 := sub_ne_zero.mpr (Ne.symm hx)
  rw [hecp]
  have hxc : ((Mod (((ξ₂.val : ℤ)) - ((ξ₁.val : ℤ))) (pn : ℤ) : ℤ) : ZMod pn) = ξ₂ - ξ₁ := by
    rw [intCast_Mod pn hpz, Int.cast_sub, intCast_val_cast, intCast_val_cast]
  have hinv : ((MultiplicativeInverse (Mod (((ξ₂.val : ℤ)) - ((ξ₁.val : ℤ))) (pn : ℤ))
      (pn : ℤ) : ℤ) : ZMod pn) = (ξ₂ - ξ₁)⁻¹ := by
    rw [intCast_MultiplicativeInverse pn _ (Mod_nonneg _ _ hpzi)
      (by rw [hxc]; exact hsub), hxc]
  push_cast [intCast_emod_self, intCast_Mod pn hpz, intCast_val_cast,
    natCast_val_cast, hinv]
  rw [div_eq_mul_inv, show η₁ - η₂ = -(η₂ - η₁) by ring,
    show ξ₁ - ξ₂ = -(ξ₂ - ξ₁) by ring, inv_neg, neg_mul_neg]

theorem ECAdditionFinish_repr (pn : ℕ) [Fact (Nat.Prime pn)] (ec : ECC)
    (hecp : ec.p = (pn : ℤ)) (ξ₁ η₁ ξ₂ η₂ : ZMod pn) (m : ℤ) (L : ZMod pn)
    (hm : ((m : ℤ) : ZMod pn) = L) :
    ECAdditionFinish ec ⟨((ξ₁.val : ℤ)), ((η₁.val : ℤ))⟩ ⟨((ξ₂.val : ℤ)), ((η₂.val : ℤ))⟩ m
      = ⟨((((curveW ec pn).addX ξ₁ ξ₂ L).val : ℤ)),
          ((((curveW ec pn).addY ξ₁ ξ₂ η₁ L).val : ℤ))⟩ := by
  have hp : Nat.Prime pn := Fact.out
  haveI : NeZero pn := ⟨hp.pos.ne'⟩
  have hpz : 0 < pn := hp.pos
  have hpn2 : 2 ≤ pn := hp.two_le
  have hpzi : (0 : ℤ) < (pn : ℤ) := by exact_mod_cast hpz
  have haddX : (curveW ec pn).addX ξ₁ ξ₂ L = L ^ 2 - ξ₁ - ξ₂ := by
    simp only [WeierstrassCurve.Affine.addX, curveW]
    ring
  have haddY : (curveW ec pn).addY ξ₁ ξ₂ η₁ L
      = L * (ξ₁ - (L ^ 2 - ξ₁ - ξ₂)) - η₁ := by
    simp only [WeierstrassCurve.Affine.addY, WeierstrassCurve.Affine.negAddY,
      WeierstrassCurve.Affine.negY, WeierstrassCurve.Affine.addX, curveW]
    ring
  unfold ECAdditionFinish
  rw [hecp]
  have hX3 : ((Mod (fastExponentation m 2 (pn : ℤ) - ((ξ₁.val : ℤ)) - ((ξ₂.val : ℤ)))
      (pn : ℤ) : ℤ) : ZMod pn) = L ^ 2 - ξ₁ - ξ₂ := by
    push_cast [intCast_Mod pn hpz, intCast_fastExp pn hpn2, intCast_val_cast,
      natCast_val_cast, hm]
    ring
  have hY3 : ((Mod ((m * Mod (((ξ₁.val : ℤ)) -
      Mod (fastExponentation m 2 (pn : ℤ) - ((ξ₁.val : ℤ)) - ((ξ₂.val : ℤ))) (pn : ℤ))
      (pn : ℤ)) % (pn : ℤ) - ((η₁.val : ℤ))) (pn : ℤ) : ℤ) : ZMod pn)
      = L * (ξ₁ - (L ^ 2 - ξ₁ - ξ₂)) - η₁ := by
    push_cast [intCast_Mod pn hpz, intCast_emod_self, intCast_fastExp pn hpn2,
      intCast_val_cast, natCast_val_cast, hm]
    ring
  refine ECPoint.ext ?_ ?_
  · exact (val_eq_of_cast pn _ _ (Mod_nonneg _ _ hpzi) (Mod_lt _ _ hpzi)
      (by rw [hX3, haddX])).symm
  · exact (val_eq_of_cast pn _ _ (Mod_nonneg _ _ hpzi) (Mod_lt _ _ hpzi)
      (by rw [hY3, haddY])).symm

theorem ECPointAddition_of_additiveInverse (ec : ECC) (P1 P2 : ECPoint)
    (hAI : isAdditiveInverse ec P1 P2 = true) :
    ECPointAddition ec P1 P2 = ECPoint.inf := by
  unfold ECPointAddition
  rw [hAI]
  simp only [if_true]

theorem ECPointAddition_of_equal_y0 (ec : ECC) (P1 P2 : ECPoint)
    (hAI : isAdditiveInverse ec P1 P2 = false) (hEq : isEqual P1 P2 = true)
    (hy : P1.y = 0) : ECPointAddition ec P1 P2 = ECPoint.inf := by
  unfold ECPointAddition
  rw [hAI]
  simp only [Bool.false_eq_true, if_false, hEq, if_true, if_pos hy]

theorem ECPointAddition_of_equal_tangent (ec : ECC) (P1 P2 : ECPoint)
    (hAI : isAdditiveInverse ec P1 P2 = false) (hEq : isEqual P1 P2 = true)
    (hy : ¬ P1.y = 0) :
    ECPointAddition ec P1 P2 = ECAdditionFinish ec P1 P2
      ((3 * fastExponentation P1.x 2 ec.p % ec.p + ec.A) % ec.p *
        (MultiplicativeInverse (2 * P1.y % ec.p) ec.p % ec.p) % ec.p) := by
  unfold ECPointAddition
  rw [hAI]
  simp only [Bool.false_eq_true, if_false, hEq, if_true, if_neg hy]

theorem ECPointAddition_of_chord (ec : ECC) (P1 P2 : ECPoint)
    (hAI : isAdditiveInverse ec P1 P2 = false) (hEq : isEqual P1 P2 = false) :
    ECPointAddition ec P1 P2 = ECAdditionFinish ec P1 P2
      (Mod (P2.y - P1.y) ec.p * MultiplicativeInverse (Mod (P2.x - P1.x) ec.p) ec.p
        % ec.p) := by
  unfold ECPointAddition
  rw [hAI, hEq]
  simp only [Bool.false_eq_true, if_false]

/-- The code's point addition computes the Mathlib group law on affine
representatives: for two finite nonsingular points, adding their
canonical integer representations yields the canonical representation of
their sum (including the sentinel when the sum is the point at
infinity). -/
theorem ECPointAddition_repr (pn : ℕ) [Fact (Nat.Prime pn)] (hodd : pn % 2 = 1)
    (ec : ECC) (hecp : ec.p = (pn : ℤ)) {ξ₁ η₁ ξ₂ η₂ : ZMod pn}
    (h₁ : (curveW ec pn).Nonsingular ξ₁ η₁)
    (h₂ : (curveW ec pn).Nonsingular ξ₂ η₂) :
    ECPointAddition ec (ptRepr (WeierstrassCurve.Affine.Point.some h₁))
        (ptRepr (WeierstrassCurve.Affine.Point.some h₂))
      = ptRepr (WeierstrassCurve.Affine.Point.some h₁
          + WeierstrassCurve.Affine.Point.some h₂) := by
  have hp : Nat.Prime pn := Fact.out
  haveI : NeZero pn := ⟨hp.pos.ne'⟩
  have hpn2 : 2 ≤ pn := hp.two_le
  have h2z : (2 : ZMod pn) ≠ 0 := two_ne_zero_zmod pn hp hodd
  have hvaliff : ∀ u v : ZMod pn, ((u.val : ℤ)) = ((v.val : ℤ)) ↔ u = v := fun u v =>
    ⟨fun h => ZMod.val_injective pn (by exact_mod_cast h), fun h => by rw [h]⟩
  have hvlt : ∀ u : ZMod pn, u.val < pn := fun u => u.val_lt
  rw [ptRepr_some, ptRepr_some]
  by_cases hx : ξ₁ = ξ₂
  · by_cases hyneg : η₁ = -η₂
    · have hsum : WeierstrassCurve.Affine.Point.some h₁
          + WeierstrassCurve.Affine.Point.some h₂ = 0 :=
        WeierstrassCurve.Affine.Point.add_of_Y_eq hx (by rw [curveW_negY]; exact hyneg)
      rw [hsum, ptRepr_zero]
      by_cases hz : η₂ = 0
      · have hη₁ : η₁ = 0 := by rw [hyneg, hz, neg_zero]
        apply ECPointAddition_of_equal_y0
        · rw [Bool.eq_false_iff]
          intro hcontra
          rw [isAdditiveInverse, Bool.and_eq_true, beq_iff_eq, beq_iff_eq] at hcontra
          have hy1 : ((η₁.val : ℤ)) = 0 := by rw [hη₁, ZMod.val_zero]; rfl
          have hy2 : ((η₂.val : ℤ)) = 0 := by rw [hz, ZMod.val_zero]; rfl
          have := hcontra.2
          simp only [hy1, hy2, hecp, sub_zero] at this
          omega
        · rw [isEqual, Bool.and_eq_true, beq_iff_eq, beq_iff_eq]
          exact ⟨(hvaliff ξ₁ ξ₂).mpr hx, (hvaliff η₁ η₂).mpr (by rw [hη₁, hz])⟩
        · show ((η₁.val : ℤ)) = 0
          rw [hη₁, ZMod.val_zero]; rfl
      · apply ECPointAddition_of_additiveInverse
        rw [isAdditiveInverse, Bool.and_eq_true, beq_iff_eq, beq_iff_eq]
        refine ⟨(hvaliff ξ₁ ξ₂).mpr hx, ?_⟩
        show ((η₁.val : ℤ)) = ec.p - ((η₂.val : ℤ))
        rw [hecp, hyneg, ZMod.neg_val, if_neg hz]
        have := hvlt η₂
        push_cast
        omega
    · have hyy : η₁ = η₂ :=
        (WeierstrassCurve.Affine.Y_eq_of_X_eq h₁.1 h₂.1 hx).resolve_right
          (by rwa [curveW_negY])
      have hη₁ : η₁ ≠ 0 := by
        intro h0
        have hη₂0 : η₂ = 0 := hyy.symm.trans h0
        exact hyneg (by rw [h0, hη₂0, neg_zero])
      have hy1ne : ¬ ((η₁.val : ℤ)) = 0 := by
        intro h0
        apply hη₁
        have hv : η₁.val = 0 := by exact_mod_cast h0
        exact (ZMod.val_eq_zero η₁).mp hv
      have hAI : isAdditiveInverse ec ⟨((ξ₁.val : ℤ)), ((η₁.val : ℤ))⟩
          ⟨((ξ₂.val : ℤ)), ((η₂.val : ℤ))⟩ = false := by
        rw [Bool.eq_false_iff]
        intro hcontra
        simp only [isAdditiveInverse, Bool.and_eq_true, beq_iff_eq] at hcontra
        apply hyneg
        have hc := congrArg (fun z : ℤ => ((z : ZMod pn))) hcontra.2
        simp only at hc
        rw [intCast_val_cast] at hc
        have hval : ((ec.p - ((η₂.val : ℤ)) : ℤ) : ZMod pn) = -η₂ := by
          rw [hecp, Int.cast_sub, intCast_val_cast, Int.cast_natCast,
            ZMod.natCast_self]
          ring
        rw [hval] at hc
        exact hc
      have hEq : isEqual ⟨((ξ₁.val : ℤ)), ((η₁.val : ℤ))⟩
          ⟨((ξ₂.val : ℤ)), ((η₂.val : ℤ))⟩ = true := by
        simp only [isEqual, Bool.and_eq_true, beq_iff_eq]
        exact ⟨(hvaliff ξ₁ ξ₂).mpr hx, (hvaliff η₁ η₂).mpr hyy⟩
      rw [ECPointAddition_of_equal_tangent ec _ _ hAI hEq hy1ne]
      have hynegY : η₁ ≠ (curveW ec pn).negY ξ₂ η₂ := by
        rw [curveW_negY]; exact hyneg
      rw [WeierstrassCurve.Affine.Point.add_of_Y_ne hynegY, ptRepr_some]
      have hslope : (curveW ec pn).slope ξ₁ ξ₂ η₁ η₂
          = (3 * ξ₁ ^ 2 + (ec.A : ZMod pn)) * (2 * η₁)⁻¹ := by
        rw [WeierstrassCurve.Affine.slope_of_Y_ne hx hynegY, div_eq_mul_inv]
        congr 1
        · simp only [curveW]; ring
        · rw [curveW_negY]; ring
      have hm := tangentM_cast pn hodd ec hecp ξ₁ η₁ hη₁
      exact ECAdditionFinish_repr pn ec hecp ξ₁ η₁ ξ₂ η₂ _
        ((curveW ec pn).slope ξ₁ ξ₂ η₁ η₂) (by rw [hm, hslope])
  · have hx12 : ¬ ((ξ₁.val : ℤ)) = ((ξ₂.val : ℤ)) := fun h => hx ((hvaliff _ _).mp h)
    have hAI : isAdditiveInverse ec ⟨((ξ₁.val : ℤ)), ((η₁.val : ℤ))⟩
        ⟨((ξ₂.val : ℤ)), ((η₂.val : ℤ))⟩ = false := by
      rw [Bool.eq_false_iff]
      intro hcontra
      simp only [isAdditiveInverse, Bool.and_eq_true, beq_iff_eq] at hcontra
      exact hx12 hcontra.1
    have hEq : isEqual ⟨((ξ₁.val : ℤ)), ((η₁.val : ℤ))⟩
        ⟨((ξ₂.val : ℤ)), ((η₂.val : ℤ))⟩ = false := by
      rw [Bool.eq_false_iff]
      intro hcontra
      simp only [isEqual, Bool.and_eq_true, beq_iff_eq] at hcontra
      exact hx12 hcontra.1
    rw [ECPointAddition_of_chord ec _ _ hAI hEq]
    rw [WeierstrassCurve.Affine.Point.add_of_X_ne hx, ptRepr_some]
    have hm := chordM_cast pn ec hecp ξ₁ η₁ ξ₂ η₂ hx
    exact ECAdditionFinish_repr pn ec hecp ξ₁ η₁ ξ₂ η₂ _
      ((curveW ec pn).slope ξ₁ ξ₂ η₁ η₂)
      (by rw [hm, WeierstrassCurve.Affine.slope_of_X_ne hx])

theorem ECPointDoubling_repr (pn : ℕ) [Fact (Nat.Prime pn)] (hodd : pn % 2 = 1)
    (ec : ECC) (hecp : ec.p = (pn : ℤ)) {ξ η : ZMod pn}
    (h : (curveW ec pn).Nonsingular ξ η) :
    ECPointDoubling ec (ptRepr (WeierstrassCurve.Affine.Point.some h))
      = ptRepr (WeierstrassCurve.Affine.Point.some h
          + WeierstrassCurve.Affine.Point.some h) := by
  rw [ECPointDoubling_eq_addition pn Fact.out hodd ec hecp]
  exact ECPointAddition_repr pn hodd ec hecp h h

theorem dnaAux_fuel (ec : ECC) (P : ECPoint) :
    ∀ (n f1 f2 : ℕ), n ≤ f1 → n ≤ f2 → dnaAux f1 ec P n = dnaAux f2 ec P n := by
  intro n
  induction n using Nat.strong_induction_on with
  | _ n ih =>
    intro f1 f2 h1 h2
    match f1, f2 with
    | 0, 0 => rfl
    | 0, g2 + 1 =>
      have hn : n = 0 := by omega
      subst hn
      simp [dnaAux]
    | g1 + 1, 0 =>
      have hn : n = 0 := by omega
      subst hn
      simp [dnaAux]
    | g1 + 1, g2 + 1 =>
      simp only [dnaAux]
      by_cases hn1 : n ≤ 1
      · rw [if_pos hn1, if_pos hn1]
      · rw [if_neg hn1, if_neg hn1,
          ih (n / 2) (by omega) g1 g2 (by omega) (by omega)]

theorem ECDoubleAndAdd_step (ec : ECC) (P : ECPoint) (n : ℕ) (hn : 2 ≤ n) :
    ECDoubleAndAdd ec P n =
      (if n % 2 = 1 then
        ECPointAddition ec (ECPointDoubling ec (ECDoubleAndAdd ec P (n / 2))) P
       else ECPointDoubling ec (ECDoubleAndAdd ec P (n / 2))) := by
  unfold ECDoubleAndAdd
  have h1 : dnaAux n ec P n = dnaAux ((n - 1) + 1) ec P n :=
    congrArg (fun f => dnaAux f ec P n) (by omega)
  rw [h1]
  simp only [dnaAux]
  rw [if_neg (by omega : ¬ n ≤ 1),
    dnaAux_fuel ec P (n / 2) (n - 1) (n / 2) (by omega) le_rfl]

/-- The code's double-and-add computes scalar multiplication in the
Mathlib group, provided no proper intermediate multiple of the base
point is the point at infinity (which the hypotheses of the protocol
claims guarantee). -/
theorem ECDoubleAndAdd_repr (pn : ℕ) [Fact (Nat.Prime pn)] (hodd : pn % 2 = 1)
    (ec : ECC) (hecp : ec.p = (pn : ℤ)) (Q : (curveW ec pn).Point) (hQ : Q ≠ 0) :
    ∀ n : ℕ, 1 ≤ n → (∀ k : ℕ, 1 ≤ k → k < n → k • Q ≠ 0) →
      ECDoubleAndAdd ec (ptRepr Q) n = ptRepr (n • Q) := by
  intro n
  induction n using Nat.strong_induction_on with
  | _ n ih =>
    intro hn hk
    by_cases h1 : n = 1
    · subst h1
      rw [one_nsmul]
      rfl
    · have hn2 : 2 ≤ n := by omega
      rw [ECDoubleAndAdd_step ec _ n hn2]
      have hmid := ih (n / 2) (by omega) (by omega)
        (fun k hk1 hk2 => hk k hk1 (by omega))
      have hhalf : (n / 2) • Q ≠ 0 := hk (n / 2) (by omega) (by omega)
      rw [hmid]
      cases hsm : (n / 2) • Q with
      | zero =>
        exact absurd (by rw [hsm]; rfl) hhalf
      | some h' =>
        rw [ECPointDoubling_repr pn hodd ec hecp h']
        have hdbl : WeierstrassCurve.Affine.Point.some h'
            + WeierstrassCurve.Affine.Point.some h' = (2 * (n / 2)) • Q := by
          rw [← hsm, (by omega : 2 * (n / 2) = n / 2 + n / 2), add_nsmul]
        by_cases hpar : n % 2 = 1
        · rw [if_pos hpar]
          have hdne : (2 * (n / 2)) • Q ≠ 0 := hk (2 * (n / 2)) (by omega) (by omega)
          cases hsd : (2 * (n / 2)) • Q with
          | zero => exact absurd (by rw [hsd]; rfl) hdne
          | some h'' =>
            rw [hdbl, hsd]
            cases hq0 : Q with
            | zero => exact absurd (by rw [hq0]; rfl) hQ
            | some h₀ =>
              rw [ECPointAddition_repr pn hodd ec hecp h'' h₀]
              congr 1
              rw [← hsd, ← hq0]
              have : n = 2 * (n / 2) + 1 := by omega
              conv_rhs => rw [this]
              rw [add_nsmul, one_nsmul]
        · rw [if_neg hpar]
          rw [hdbl]
          congr 1
          have : n = 2 * (n / 2) := by omega
          conv_rhs => rw [this]

theorem nsmul_eq_zero_iff_card_dvd (ec : ECC) (pn : ℕ) [Fact (Nat.Prime pn)]
    (hN : (Nat.card (curveW ec pn).Point).Prime)
    (Q : (curveW ec pn).Point) (hQ : Q ≠ 0) (k : ℕ) :
    k • Q = 0 ↔ Nat.card (curveW ec pn).Point ∣ k := by
  have h1 : addOrderOf Q ∣ Nat.card (curveW ec pn).Point := addOrderOf_dvd_natCard Q
  have h2 : addOrderOf Q = Nat.card (curveW ec pn).Point := by
    rcases (Nat.Prime.eq_one_or_self_of_dvd hN _ h1) with h | h
    · exact absurd (AddMonoid.addOrderOf_eq_one_iff.mp h) hQ
    · exact h
  rw [← h2, ← addOrderOf_dvd_iff_nsmul_eq_zero]

/-! ### The computed order is the cardinality of the point group -/

theorem contrib_eq_quadraticChar (pn : ℕ) [Fact (Nat.Prime pn)] (hodd : pn % 2 = 1)
    (A B : ℤ) (x : ℕ) :
    (if (fastExponentation (x : ℤ) 3 (pn : ℤ) + A * (x : ℤ) % (pn : ℤ) + B) % (pn : ℤ) = 0
       then (0 : ℤ)
     else if isQuadraticResidue
         ((fastExponentation (x : ℤ) 3 (pn : ℤ) + A * (x : ℤ) % (pn : ℤ) + B) % (pn : ℤ))
         (pn : ℤ) then 1 else -1)
    = quadraticChar (ZMod pn)
        ((x : ZMod pn) ^ 3 + (A : ZMod pn) * (x : ZMod pn) + (B : ZMod pn)) := by
  have hp : Nat.Prime pn := Fact.out
  haveI : NeZero pn := ⟨hp.pos.ne'⟩
  have hpn2 : 2 ≤ pn := hp.two_le
  have hpz : (0 : ℤ) < (pn : ℤ) := by exact_mod_cast hp.pos
  set w : ℤ :=
    (fastExponentation (x : ℤ) 3 (pn : ℤ) + A * (x : ℤ) % (pn : ℤ) + B) % (pn : ℤ) with hw
  set r : ZMod pn :=
    (x : ZMod pn) ^ 3 + (A : ZMod pn) * (x : ZMod pn) + (B : ZMod pn) with hr
  have hwcast : ((w : ℤ) : ZMod pn) = r := by
    rw [hw, hr]
    push_cast [intCast_emod_self, intCast_fastExp pn hpn2]
    ring
  have hw0 : 0 ≤ w := Int.emod_nonneg _ (by omega)
  have hw1 : w < (pn : ℤ) := Int.emod_lt_of_pos _ hpz
  have hexp : (((pn : ℤ) - 1) / 2).toNat = pn / 2 := by omega
  have hqr_iff : isQuadraticResidue w (pn : ℤ) = true ↔ r ^ (pn / 2) = 1 := by
    unfold isQuadraticResidue
    rw [beq_iff_eq, fastExponentation_correct _ _ _ (by exact_mod_cast hpn2), hexp]
    constructor
    · intro h
      have hc := congrArg (fun z : ℤ => ((z : ZMod pn))) h
      simp only [intCast_emod_self, Int.cast_pow, hwcast, Int.cast_one] at hc
      exact hc
    · intro h
      have hc : ((w ^ (pn / 2) % (pn : ℤ) : ℤ) : ZMod pn) = ((1 : ℤ) : ZMod pn) := by
        rw [intCast_emod_self, Int.cast_pow, hwcast, h, Int.cast_one]
      exact intCast_inj_of_range pn _ _ (Int.emod_nonneg _ (by omega))
        (Int.emod_lt_of_pos _ hpz) (by norm_num) (by omega) hc
  by_cases h0 : w = 0
  · rw [if_pos h0]
    have hr0 : r = 0 := by rw [← hwcast, h0, Int.cast_zero]
    rw [hr0, MulChar.map_zero]
  · rw [if_neg h0]
    have hrne : r ≠ 0 := by
      intro hr0
      apply h0
      apply intCast_inj_of_range pn w 0 hw0 hw1 le_rfl hpz
      rw [hwcast, hr0, Int.cast_zero]
    by_cases hq : isQuadraticResidue w (pn : ℤ) = true
    · rw [if_pos hq]
      have hsq : IsSquare r := (ZMod.euler_criterion pn hrne).mpr (hqr_iff.mp hq)
      exact ((quadraticChar_one_iff_isSquare hrne).mpr hsq).symm
    · rw [if_neg hq]
      have hnsq : ¬ IsSquare r := fun hsq =>
        hq (hqr_iff.mpr ((ZMod.euler_criterion pn hrne).mp hsq))
      exact (quadraticChar_neg_one_iff_not_isSquare.mpr hnsq).symm

theorem sum_range_quadraticChar (pn : ℕ) [Fact (Nat.Prime pn)] (A B : ℤ) :
    ∑ x ∈ Finset.range pn,
      quadraticChar (ZMod pn)
        ((x : ZMod pn) ^ 3 + (A : ZMod pn) * (x : ZMod pn) + (B : ZMod pn))
    = ∑ ξ : ZMod pn,
        quadraticChar (ZMod pn) (ξ ^ 3 + (A : ZMod pn) * ξ + (B : ZMod pn)) := by
  haveI : NeZero pn := ⟨(Fact.out : Nat.Prime pn).pos.ne'⟩
  refine Finset.sum_bij' (fun x _ => ((x : ZMod pn))) (fun ξ _ => ξ.val) ?_ ?_ ?_ ?_ ?_
  · intro a _
    exact Finset.mem_univ _
  · intro ξ _
    exact Finset.mem_range.mpr ξ.val_lt
  · intro x hx
    exact ZMod.val_cast_of_lt (Finset.mem_range.mp hx)
  · intro ξ _
    exact natCast_val_cast pn ξ
  · intro x _
    rfl

theorem card_point_eq_ECOrder (pn : ℕ) [Fact (Nat.Prime pn)] (hodd : pn % 2 = 1)
    (ec : ECC) (hecp : ec.p = (pn : ℤ))
    (hns : isECNonSingular ec.A ec.B ec.p = true) :
    ((Nat.card (curveW ec pn).Point : ℕ) : ℤ) = ECOrder ec.A ec.B ec.p := by
  classical
  have hp : Nat.Prime pn := Fact.out
  haveI : NeZero pn := ⟨hp.pos.ne'⟩
  have hpn2 : 2 ≤ pn := hp.two_le
  have hΔ := curveW_Δ_ne_zero pn hodd ec hecp hns
  have e1 : (curveW ec pn).Point ≃
      Option {xy : ZMod pn × ZMod pn // (curveW ec pn).Equation xy.1 xy.2} :=
    { toFun := fun P => match P with
        | WeierstrassCurve.Affine.Point.zero => none
        | @WeierstrassCurve.Affine.Point.some _ _ _ ξ η h => some ⟨(ξ, η), h.1⟩,
      invFun := fun o => match o with
        | none => WeierstrassCurve.Affine.Point.zero
        | some s => WeierstrassCurve.Affine.Point.some
            (WeierstrassCurve.Affine.nonsingular_of_Δ_ne_zero (curveW ec pn) s.2 hΔ),
      left_inv := by rintro (_ | _) <;> rfl,
      right_inv := by rintro (_ | ⟨⟨ξ, η⟩, he⟩) <;> rfl }
  have e2 : {xy : ZMod pn × ZMod pn // (curveW ec pn).Equation xy.1 xy.2} ≃
      (Σ ξ : ZMod pn, {η : ZMod pn // (curveW ec pn).Equation ξ η}) :=
    { toFun := fun s => ⟨s.1.1, s.1.2, s.2⟩,
      invFun := fun s => ⟨(s.1, s.2.1), s.2.2⟩,
      left_inv := fun ⟨⟨_, _⟩, _⟩ => rfl,
      right_inv := fun ⟨_, _, _⟩ => rfl }
  have hcard1 : Nat.card (curveW ec pn).Point
      = (∑ ξ : ZMod pn, Nat.card {η : ZMod pn // (curveW ec pn).Equation ξ η}) + 1 := by
    rw [Nat.card_congr e1, Finite.card_option, Nat.card_congr e2,
      Nat.card_eq_fintype_card, Fintype.card_sigma]
    congr 1
    exact Finset.sum_congr rfl fun ξ _ => (Nat.card_eq_fintype_card).symm
  have fib : ∀ ξ : ZMod pn,
      ((Nat.card {η : ZMod pn // (curveW ec pn).Equation ξ η} : ℕ) : ℤ)
      = quadraticChar (ZMod pn) (ξ ^ 3 + (ec.A : ZMod pn) * ξ + (ec.B : ZMod pn)) + 1 := by
    intro ξ
    have e3 : {η : ZMod pn // (curveW ec pn).Equation ξ η}
        ≃ {η : ZMod pn // η ^ 2 = ξ ^ 3 + (ec.A : ZMod pn) * ξ + (ec.B : ZMod pn)} :=
      Equiv.subtypeEquivRight (fun η => curveW_equation ec pn ξ η)
    rw [Nat.card_congr e3]
    have hchar : ringChar (ZMod pn) ≠ 2 := by
      rw [ZMod.ringChar_zmod_n]
      omega
    have hq := quadraticChar_card_sqrts hchar
      (ξ ^ 3 + (ec.A : ZMod pn) * ξ + (ec.B : ZMod pn))
    rw [← hq]
    congr 1
    rw [Nat.card_eq_fintype_card, Set.toFinset_card]
    exact Fintype.card_congr (Equiv.refl _)
  rw [hcard1, hecp]
  unfold ECOrder
  rw [Int.toNat_natCast]
  rw [Finset.sum_congr rfl fun x _ => contrib_eq_quadraticChar pn hodd ec.A ec.B x,
    sum_range_quadraticChar pn ec.A ec.B]
  push_cast
  rw [Finset.sum_congr rfl fun ξ _ => fib ξ, Finset.sum_add_distrib,
    Finset.sum_const, Finset.card_univ, ZMod.card pn]
  push_cast
  ring

/-! ### Protocol-level claims -/

theorem ready_setup (pn : ℕ) [Fact (Nat.Prime pn)] (hodd : pn % 2 = 1)
    (ec : ECC) (hecp : ec.p = (pn : ℤ))
    (hns : isECNonSingular ec.A ec.B ec.p = true)
    (hord : ec.ecOrder = ECOrder ec.A ec.B ec.p)
    (G : ECPoint) (hG : onCurve ec G) (hGr : inRange ec G) :
    ∃ Q : (curveW ec pn).Point, ptRepr Q = G ∧ Q ≠ 0 ∧
      Nat.card (curveW ec pn).Point = ec.ecOrder.toNat := by
  haveI : NeZero pn := ⟨(Fact.out : Nat.Prime pn).pos.ne'⟩
  refine ⟨WeierstrassCurve.Affine.Point.some
    (nonsingular_of_code pn hodd ec hecp hns G hG), ?_, ?_, ?_⟩
  · exact ptRepr_roundtrip pn ec hecp G hGr _
  · exact WeierstrassCurve.Affine.Point.some_ne_zero _
  · have h1 : ec.ecOrder = ((Nat.card (curveW ec pn).Point : ℕ) : ℤ) := by
      rw [hord, ← card_point_eq_ECOrder pn hodd ec hecp hns]
    rw [h1, Int.toNat_natCast]

theorem double_scalar_repr (pn : ℕ) [Fact (Nat.Prime pn)] (hodd : pn % 2 = 1)
    (ec : ECC) (hecp : ec.p = (pn : ℤ)) (Q : (curveW ec pn).Point) (hQ0 : Q ≠ 0)
    (hNp : (Nat.card (curveW ec pn).Point).Prime) (a b : ℕ)
    (ha1 : 1 ≤ a) (ha2 : a ≤ Nat.card (curveW ec pn).Point - 1)
    (hb1 : 1 ≤ b) (hb2 : b ≤ Nat.card (curveW ec pn).Point - 1) :
    ECDoubleAndAdd ec (ECDoubleAndAdd ec (ptRepr Q) a) b = ptRepr ((a * b) • Q) := by
  have hN2 : 2 ≤ Nat.card (curveW ec pn).Point := hNp.two_le
  have hzero_iff : ∀ k : ℕ, (k • Q = 0 ↔ Nat.card (curveW ec pn).Point ∣ k) :=
    fun k => nsmul_eq_zero_iff_card_dvd ec pn hNp Q hQ0 k
  have hstep1 : ECDoubleAndAdd ec (ptRepr Q) a = ptRepr (a • Q) := by
    refine ECDoubleAndAdd_repr pn hodd ec hecp Q hQ0 a ha1 (fun k hk1 hk2 => ?_)
    rw [Ne, hzero_iff k]
    intro hdvd
    have := Nat.le_of_dvd (by omega) hdvd
    omega
  have haQ : a • Q ≠ 0 := by
    rw [Ne, hzero_iff a]
    intro hdvd
    have := Nat.le_of_dvd (by omega) hdvd
    omega
  have hstep2 : ECDoubleAndAdd ec (ptRepr (a • Q)) b = ptRepr (b • a • Q) := by
    refine ECDoubleAndAdd_repr pn hodd ec hecp (a • Q) haQ b hb1 (fun k hk1 hk2 => ?_)
    rw [smul_smul, Ne, hzero_iff (k * a)]
    intro hdvd
    rcases (Nat.Prime.dvd_mul hNp).mp hdvd with h | h
    · have := Nat.le_of_dvd (by omega) h
      omega
    · have := Nat.le_of_dvd (by omega) h
      omega
  rw [hstep1, hstep2, smul_smul, Nat.mul_comm b a]

/-- C1: on a `Ready` curve (odd prime modulus, non-singular, stored order
equal to the computed point count and prime) and for every on-curve
generator with normalized coordinates, scalar multiplication commutes:
`ECDoubleAndAdd(ECDoubleAndAdd(G, k1), k2) = ECDoubleAndAdd(ECDoubleAndAdd(G, k2), k1)`
for all `k1, k2 ∈ [1, order-1]`, so the two parties derive the same
shared point. -/
theorem C1_commutative_shared_secret (pn : ℕ) (hp : Nat.Prime pn) (hodd : pn % 2 = 1)
    (ec : ECC) (hecp : ec.p = (pn : ℤ))
    (hns : isECNonSingular ec.A ec.B ec.p = true)
    (hord : ec.ecOrder = ECOrder ec.A ec.B ec.p)
    (hOprime : Nat.Prime ec.ecOrder.toNat)
    (G : ECPoint) (hG : onCurve ec G) (hGr : inRange ec G)
    (k1 k2 : ℕ) (hk11 : 1 ≤ k1) (hk12 : k1 ≤ ec.ecOrder.toNat - 1)
    (hk21 : 1 ≤ k2) (hk22 : k2 ≤ ec.ecOrder.toNat - 1) :
    ECDoubleAndAdd ec (ECDoubleAndAdd ec G k1) k2
      = ECDoubleAndAdd ec (ECDoubleAndAdd ec G k2) k1 := by
  haveI : Fact (Nat.Prime pn) := ⟨hp⟩
  obtain ⟨Q, hQG, hQ0, hcard⟩ := ready_setup pn hodd ec hecp hns hord G hG hGr
  have hNp : (Nat.card (curveW ec pn).Point).Prime := by rw [hcard]; exact hOprime
  rw [← hQG]
  rw [double_scalar_repr pn hodd ec hecp Q hQ0 hNp k1 k2 hk11 (by omega) hk21 (by omega),
    double_scalar_repr pn hodd ec hecp Q hQ0 hNp k2 k1 hk21 (by omega) hk11 (by omega),
    Nat.mul_comm]

/-- C1 witness: the toy curve `y² = x³ + 3x + 2 (mod 5)` of computed
prime order 5, generator `(1, 1)`, scalars `k1 = 2`, `k2 = 3`. -/
theorem C1_commutative_shared_secret_witness :
    ECDoubleAndAdd ⟨3, 2, 5, 5⟩ (ECDoubleAndAdd ⟨3, 2, 5, 5⟩ ⟨1, 1⟩ 2) 3
      = ECDoubleAndAdd ⟨3, 2, 5, 5⟩ (ECDoubleAndAdd ⟨3, 2, 5, 5⟩ ⟨1, 1⟩ 3) 2 :=
  C1_commutative_shared_secret 5 (by norm_num) (by norm_num) ⟨3, 2, 5, 5⟩ rfl
    (by decide) (by decide) (by decide) ⟨1, 1⟩ (by decide) (by decide)
    2 3 (by decide) (by decide) (by decide) (by decide)

/-- C6: on a `Ready` curve whose stored order (the computed point count)
is prime, every on-curve point with normalized coordinates is
annihilated by the order: `ECDoubleAndAdd(G, order)` is the `(-1, -1)`
infinity sentinel. -/
theorem C6_order_annihilation (pn : ℕ) (hp : Nat.Prime pn) (hodd : pn % 2 = 1)
    (ec : ECC) (hecp : ec.p = (pn : ℤ))
    (hns : isECNonSingular ec.A ec.B ec.p = true)
    (hord : ec.ecOrder = ECOrder ec.A ec.B ec.p)
    (hOprime : Nat.Prime ec.ecOrder.toNat)
    (G : ECPoint) (hG : onCurve ec G) (hGr : inRange ec G) :
    ECDoubleAndAdd ec G ec.ecOrder.toNat = ECPoint.inf := by
  haveI : Fact (Nat.Prime pn) := ⟨hp⟩
  obtain ⟨Q, hQG, hQ0, hcard⟩ := ready_setup pn hodd ec hecp hns hord G hG hGr
  have hNp : (Nat.card (curveW ec pn).Point).Prime := by rw [hcard]; exact hOprime
  have hN2 : 2 ≤ ec.ecOrder.toNat := hOprime.two_le
  have hzero_iff : ∀ k : ℕ, (k • Q = 0 ↔ Nat.card (curveW ec pn).Point ∣ k) :=
    fun k => nsmul_eq_zero_iff_card_dvd ec pn hNp Q hQ0 k
  rw [← hQG,
    ECDoubleAndAdd_repr pn hodd ec hecp Q hQ0 ec.ecOrder.toNat (by omega)
      (fun k hk1 hk2 => by
        rw [Ne, hzero_iff k, hcard]
        intro hdvd
        have := Nat.le_of_dvd (by omega) hdvd
        omega)]
  have hann : ec.ecOrder.toNat • Q = 0 := (hzero_iff _).mpr (by rw [hcard])
  rw [hann, ptRepr_zero]

/-- C6 witness: the toy curve `y² = x³ + 3x + 2 (mod 5)` with on-curve
point `(1, 1)`: multiplying by the order 5 yields the sentinel. -/
theorem C6_order_annihilation_witness :
    ECDoubleAndAdd ⟨3, 2, 5, 5⟩ ⟨1, 1⟩ (5 : ℤ).toNat = ECPoint.inf :=
  C6_order_annihilation 5 (by norm_num) (by norm_num) ⟨3, 2, 5, 5⟩ rfl
    (by decide) (by decide) (by decide) ⟨1, 1⟩ (by decide) (by decide)

/-- C5: exhaustive key search is complete and sound.  On a `Ready` curve
of prime order with generator `G`, for the true pair `(a, b)` with
`K_A = a·G`, `K_B = b·G` and published secret `y* = (a·K_B).y`, the list
returned by `find_all_private_keys` contains `(a, b)`; and every pair in
the list reproduces both public keys and gives both shared points the
published y-coordinate. -/
theorem C5_exhaustive_search (pn : ℕ) (hp : Nat.Prime pn) (hodd : pn % 2 = 1)
    (ec : ECC) (hecp : ec.p = (pn : ℤ))
    (hns : isECNonSingular ec.A ec.B ec.p = true)
    (hord : ec.ecOrder = ECOrder ec.A ec.B ec.p)
    (hOprime : Nat.Prime ec.ecOrder.toNat)
    (G : ECPoint) (hG : onCurve ec G) (hGr : inRange ec G)
    (a b : ℕ) (ha1 : 1 ≤ a) (ha2 : a ≤ ec.ecOrder.toNat - 1)
    (hb1 : 1 ≤ b) (hb2 : b ≤ ec.ecOrder.toNat - 1) :
    ((a, b) ∈ find_all_private_keys ec G (ECDoubleAndAdd ec G a)
        (ECDoubleAndAdd ec G b)
        (ECDoubleAndAdd ec (ECDoubleAndAdd ec G b) a).y) ∧
    (∀ q : ℕ × ℕ, q ∈ find_all_private_keys ec G (ECDoubleAndAdd ec G a)
        (ECDoubleAndAdd ec G b)
        (ECDoubleAndAdd ec (ECDoubleAndAdd ec G b) a).y →
      ECDoubleAndAdd ec G q.1 = ECDoubleAndAdd ec G a ∧
      ECDoubleAndAdd ec G q.2 = ECDoubleAndAdd ec G b ∧
      (ECDoubleAndAdd ec (ECDoubleAndAdd ec G b) q.1).y
        = (ECDoubleAndAdd ec (ECDoubleAndAdd ec G b) a).y ∧
      (ECDoubleAndAdd ec (ECDoubleAndAdd ec G a) q.2).y
        = (ECDoubleAndAdd ec (ECDoubleAndAdd ec G b) a).y) := by
  haveI : Fact (Nat.Prime pn) := ⟨hp⟩
  obtain ⟨Q, hQG, hQ0, hcard⟩ := ready_setup pn hodd ec hecp hns hord G hG hGr
  have hNp : (Nat.card (curveW ec pn).Point).Prime := by rw [hcard]; exact hOprime
  have hN2 : 2 ≤ ec.ecOrder.toNat := hOprime.two_le
  have hcomm : ECDoubleAndAdd ec (ECDoubleAndAdd ec G a) b
      = ECDoubleAndAdd ec (ECDoubleAndAdd ec G b) a := by
    rw [← hQG]
    rw [double_scalar_repr pn hodd ec hecp Q hQ0 hNp a b ha1 (by omega) hb1 (by omega),
      double_scalar_repr pn hodd ec hecp Q hQ0 hNp b a hb1 (by omega) ha1 (by omega),
      Nat.mul_comm]
  constructor
  · unfold find_all_private_keys
    rw [List.mem_flatMap]
    refine ⟨a, ?_, ?_⟩
    · rw [List.mem_range']
      exact ⟨a - 1, by omega, by omega⟩
    · rw [List.mem_filterMap]
      refine ⟨b, ?_, ?_⟩
      · rw [List.mem_range']
        exact ⟨b - 1, by omega, by omega⟩
      · show (if (ECDoubleAndAdd ec G a).x = (ECDoubleAndAdd ec G a).x ∧
              (ECDoubleAndAdd ec G a).y = (ECDoubleAndAdd ec G a).y ∧
              (ECDoubleAndAdd ec G b).x = (ECDoubleAndAdd ec G b).x ∧
              (ECDoubleAndAdd ec G b).y = (ECDoubleAndAdd ec G b).y then
            if (ECDoubleAndAdd ec (ECDoubleAndAdd ec G b) a).y
                  = (ECDoubleAndAdd ec (ECDoubleAndAdd ec G b) a).y ∧
                (ECDoubleAndAdd ec (ECDoubleAndAdd ec G a) b).y
                  = (ECDoubleAndAdd ec (ECDoubleAndAdd ec G b) a).y then
              some (a, b)
            else none
          else none) = some (a, b)
        rw [if_pos ⟨rfl, rfl, rfl, rfl⟩,
          if_pos ⟨rfl, congrArg ECPoint.y hcomm⟩]
  · intro q hq
    unfold find_all_private_keys at hq
    rw [List.mem_flatMap] at hq
    obtain ⟨a', _, hq⟩ := hq
    rw [List.mem_filterMap] at hq
    obtain ⟨b', _, heq⟩ := hq
    simp only at heq
    split_ifs at heq with h1 h2
    · rw [Option.some_inj] at heq
      obtain ⟨hx1, hy1, hx2, hy2⟩ := h1
      obtain ⟨hk1, hk2⟩ := h2
      have hqa : q.1 = a' := by rw [← heq]
      have hqb : q.2 = b' := by rw [← heq]
      rw [hqa, hqb]
      exact ⟨ECPoint.ext hx1 hy1, ECPoint.ext hx2 hy2, hk1, hk2⟩

/-- C5 witness: the toy curve of order 5 with generator `(1, 1)` and
true pair `(2, 3)`. -/
theorem C5_exhaustive_search_witness :
    ((2, 3) ∈ find_all_private_keys ⟨3, 2, 5, 5⟩ ⟨1, 1⟩
        (ECDoubleAndAdd ⟨3, 2, 5, 5⟩ ⟨1, 1⟩ 2) (ECDoubleAndAdd ⟨3, 2, 5, 5⟩ ⟨1, 1⟩ 3)
        (ECDoubleAndAdd ⟨3, 2, 5, 5⟩ (ECDoubleAndAdd ⟨3, 2, 5, 5⟩ ⟨1, 1⟩ 3) 2).y) ∧
    (∀ q : ℕ × ℕ, q ∈ find_all_private_keys ⟨3, 2, 5, 5⟩ ⟨1, 1⟩
        (ECDoubleAndAdd ⟨3, 2, 5, 5⟩ ⟨1, 1⟩ 2) (ECDoubleAndAdd ⟨3, 2, 5, 5⟩ ⟨1, 1⟩ 3)
        (ECDoubleAndAdd ⟨3, 2, 5, 5⟩ (ECDoubleAndAdd ⟨3, 2, 5, 5⟩ ⟨1, 1⟩ 3) 2).y →
      ECDoubleAndAdd ⟨3, 2, 5, 5⟩ ⟨1, 1⟩ q.1 = ECDoubleAndAdd ⟨3, 2, 5, 5⟩ ⟨1, 1⟩ 2 ∧
      ECDoubleAndAdd ⟨3, 2, 5, 5⟩ ⟨1, 1⟩ q.2 = ECDoubleAndAdd ⟨3, 2, 5, 5⟩ ⟨1, 1⟩ 3 ∧
      (ECDoubleAndAdd ⟨3, 2, 5, 5⟩ (ECDoubleAndAdd ⟨3, 2, 5, 5⟩ ⟨1, 1⟩ 3) q.1).y
        = (ECDoubleAndAdd ⟨3, 2, 5, 5⟩ (ECDoubleAndAdd ⟨3, 2, 5, 5⟩ ⟨1, 1⟩ 3) 2).y ∧
      (ECDoubleAndAdd ⟨3, 2, 5, 5⟩ (ECDoubleAndAdd ⟨3, 2, 5, 5⟩ ⟨1, 1⟩ 2) q.2).y
        = (ECDoubleAndAdd ⟨3, 2, 5, 5⟩ (ECDoubleAndAdd ⟨3, 2, 5, 5⟩ ⟨1, 1⟩ 3) 2).y) :=
  C5_exhaustive_search 5 (by norm_num) (by norm_num) ⟨3, 2, 5, 5⟩ rfl
    (by decide) (by decide) (by decide) ⟨1, 1⟩ (by decide) (by decide)
    2 3 (by decide) (by decide) (by decide) (by decide)

end SPDHEC
